import Mathlib

/-!
Verification of the matching and arbitrage-evaluation engine of
`skills/prediction-arb/scripts/detect_arbitrage.py`.

Prices, fees and similarity scores are embedded as rationals (`ℚ`); the
Python source computes with IEEE floats, but every claim under scrutiny
concerns the defining formulas, so the exact-arithmetic embedding is the
faithful reading.  Event names are embedded as `List Char` / `String`.
-/

namespace DetectArb

/-- The four strategy tags of `calculate_arbitrage` (the `strategy` strings of
the emitted dicts, as a closed enumeration). -/
inductive Strategy where
  | polyYesKalNo
  | polyNoKalYes
  | spreadPolyYes
  | spreadKalYes
deriving DecidableEq, Repr

/-- One emitted opportunity dict of `calculate_arbitrage`.  Keys that are
present only for some strategies are `Option`-valued (`none` means the key is
absent from the dict: the cross-outcome dicts carry `theoretical_cost` and
`theoretical_return` but no `buy_price`/`sell_price`; the spread dicts carry
`buy_price`/`sell_price` but no cost/return keys). -/
structure Opp where
  strategy : Strategy
  theoretical_cost : Option ℚ
  theoretical_return : Option ℚ
  theoretical_profit : ℚ
  profit_pct : ℚ
  buy_price : Option ℚ
  sell_price : Option ℚ
deriving DecidableEq, Repr

/-- Module constant `POLYMARKET_FEE` (env default `"0.02"`). -/
def POLYMARKET_FEE : ℚ := 2 / 100

/-- Module constant `KALSHI_FEE` (env default `"0.01"`). -/
def KALSHI_FEE : ℚ := 1 / 100

/-- Module constant `MATCH_THRESHOLD` (env default `"0.70"`). -/
def MATCH_THRESHOLD : ℚ := 70 / 100

/-- `calculate_arbitrage(poly_yes, poly_no, kalshi_yes, kalshi_no)` of
`detect_arbitrage.py` lines 89-164, with the two module-level fee constants
passed explicitly as `pfee` (`POLYMARKET_FEE`) and `kfee` (`KALSHI_FEE`).
The four strategy blocks append to `opportunities` in source order.
The Python `(profit / c) * 100 if c else 0.0` guards are kept verbatim even
where the enclosing `if` already forces `c ≠ 0`. -/
def calculate_arbitrage (poly_yes poly_no kalshi_yes kalshi_no pfee kfee : ℚ) :
    List Opp :=
  let cost_a := poly_yes * (1 + pfee) + kalshi_no * (1 + kfee)
  let oppsA : List Opp :=
    if 0 < cost_a ∧ cost_a < 1 then
      [{ strategy := .polyYesKalNo
         theoretical_cost := some cost_a
         theoretical_return := some 1
         theoretical_profit := 1 - cost_a
         profit_pct := if cost_a ≠ 0 then (1 - cost_a) / cost_a * 100 else 0
         buy_price := none
         sell_price := none }]
    else []
  let cost_b := poly_no * (1 + pfee) + kalshi_yes * (1 + kfee)
  let oppsB : List Opp :=
    if 0 < cost_b ∧ cost_b < 1 then
      [{ strategy := .polyNoKalYes
         theoretical_cost := some cost_b
         theoretical_return := some 1
         theoretical_profit := 1 - cost_b
         profit_pct := if cost_b ≠ 0 then (1 - cost_b) / cost_b * 100 else 0
         buy_price := none
         sell_price := none }]
    else []
  let oppsSpread : List Opp :=
    if 0 < poly_yes ∧ 0 < kalshi_yes then
      let opps3 : List Opp :=
        if poly_yes < kalshi_yes * (1 - kfee - pfee) then
          let profit := kalshi_yes - poly_yes - poly_yes * pfee - kalshi_yes * kfee
          if 0 < profit then
            [{ strategy := .spreadPolyYes
               theoretical_cost := none
               theoretical_return := none
               theoretical_profit := profit
               profit_pct := if poly_yes ≠ 0 then profit / poly_yes * 100 else 0
               buy_price := some poly_yes
               sell_price := some kalshi_yes }]
          else []
        else []
      let opps4 : List Opp :=
        if kalshi_yes < poly_yes * (1 - kfee - pfee) then
          let profit := poly_yes - kalshi_yes - kalshi_yes * kfee - poly_yes * pfee
          if 0 < profit then
            [{ strategy := .spreadKalYes
               theoretical_cost := none
               theoretical_return := none
               theoretical_profit := profit
               profit_pct := if kalshi_yes ≠ 0 then profit / kalshi_yes * 100 else 0
               buy_price := some kalshi_yes
               sell_price := some poly_yes }]
          else []
        else []
      opps3 ++ opps4
    else []
  oppsA ++ oppsB ++ oppsSpread

/-- Python `str.lower` on one character, restricted to ASCII letters (the
only case the pipeline's event names exercise; CPython lowercases the full
Unicode table, of which this is the ASCII fragment). -/
def pyLowerChar (c : Char) : Char :=
  if 65 ≤ c.toNat ∧ c.toNat ≤ 90 then Char.ofNat (c.toNat + 32) else c

/-- `name.lower()` on the character list of a string. -/
def pyLower (l : List Char) : List Char := l.map pyLowerChar

/-- Python `str.strip()`: drop leading and trailing whitespace (ASCII
whitespace; CPython also strips the rarer Unicode spaces). -/
def pyStrip (l : List Char) : List Char :=
  ((l.dropWhile Char.isWhitespace).reverse.dropWhile Char.isWhitespace).reverse

/-- `s.replace(c, "")` for a single character `c`: delete every occurrence. -/
def pyReplaceDel (c : Char) (l : List Char) : List Char :=
  l.filter (fun x => x != c)

/-- `normalize_event_name` (lines 40-49): lowercase, strip, then delete the
four characters `?`, `!`, `.` and `,` in source order. -/
def normalize_event_name (s : String) : String :=
  String.mk
    (pyReplaceDel ','
      (pyReplaceDel '.'
        (pyReplaceDel '!'
          (pyReplaceDel '?'
            (pyStrip (pyLower s.data))))))

/-- The JSON-derived Python values the price-extraction lines of
`detect_arbitrage` distinguish: `None`, a number, or some other falsy
non-numeric value such as `""` (a truthy non-numeric value would raise in
`float(...)` and is outside every claim). -/
inductive PyVal where
  | null
  | num (q : ℚ)
  | emptyStr
deriving DecidableEq, Repr

/-- Python truthiness of a `PyVal`. -/
def PyVal.truthy : PyVal → Bool
  | .null => false
  | .num q => q != 0
  | .emptyStr => false

/-- `float(v or 0)` as applied on lines 179-184: `v or 0` yields the int `0`
whenever `v` is falsy, and `float` maps the surviving numeric values to
themselves. -/
def pyFloatOr0 (v : PyVal) : ℚ :=
  if v.truthy then match v with | .num q => q | _ => 0 else 0

/-- A Polymarket snapshot record (the dict fields read by the pipeline).
`none` in an `Option PyVal` field means the key is absent from the dict. -/
structure PolyRec where
  event_name : String
  yes_price : Option PyVal
  no_price : Option PyVal
deriving DecidableEq, Repr

/-- A Kalshi snapshot record (the dict fields read by the pipeline). -/
structure KalRec where
  event_name : String
  yes_mid : Option PyVal
  no_mid : Option PyVal
  yes_price : Option PyVal
  no_price : Option PyVal
deriving DecidableEq, Repr

/-- Line 179: `float(poly.get("yes_price", 0) or 0)`. -/
def polyYesPrice (p : PolyRec) : ℚ := pyFloatOr0 (p.yes_price.getD (.num 0))

/-- Line 180: `float(poly.get("no_price", 0) or 0)`. -/
def polyNoPrice (p : PolyRec) : ℚ := pyFloatOr0 (p.no_price.getD (.num 0))

/-- Line 183: `float(kal.get("yes_mid", kal.get("yes_price", 0)) or 0)` —
the `yes_price` fallback is consulted only when the `yes_mid` key is absent. -/
def kalYesPrice (k : KalRec) : ℚ :=
  pyFloatOr0 (k.yes_mid.getD (k.yes_price.getD (.num 0)))

/-- Line 184: `float(kal.get("no_mid", kal.get("no_price", 0)) or 0)`. -/
def kalNoPrice (k : KalRec) : ℚ :=
  pyFloatOr0 (k.no_mid.getD (k.no_price.getD (.num 0)))

/-- The guard and evaluator call of one iteration of the match loop
(lines 186-189): Python `if not (w and x and y and z): continue` skips the
pair when any extracted price is falsy, i.e. equal to `0`. -/
def processPairPrices (py pn ky kn pfee kfee : ℚ) : List Opp :=
  if py ≠ 0 ∧ pn ≠ 0 ∧ ky ≠ 0 ∧ kn ≠ 0 then
    calculate_arbitrage py pn ky kn pfee kfee
  else []

/-- One full iteration of the match loop: extract the four prices of a
matched pair (lines 178-184), then guard and evaluate (lines 186-189). -/
def processPair (poly : PolyRec) (kal : KalRec) (pfee kfee : ℚ) : List Opp :=
  processPairPrices (polyYesPrice poly) (polyNoPrice poly)
    (kalYesPrice kal) (kalNoPrice kal) pfee kfee

/-!
Embedding of the ranker `df.sort_values("profit_pct", ascending=False)`
(line 210).  For a single-column sort pandas computes
`nargsort(items, kind="quicksort", ascending=False)`
(`pandas/core/sorting.py`): with no NaNs present it reverses the values and
the index array, takes `argsort(kind='quicksort')`, and reverses the
resulting indexer.  numpy's `argsort(kind='quicksort')` for doubles is the
introsort `aquicksort_@suff@` of `npysort/quicksort.c.src`: median-of-3
partition with Hoare scans while the segment is longer than
`SMALL_QUICKSORT = 15` entries, a depth-limited (`2 * npy_get_msb(num)`)
switch to `aheapsort_@suff@`, and an insertion sort for the small segments.
The `profit_pct` values are finite rationals, so the NaN clause of
`Double_LT` (`a < b || (b != b && a == a)`) never fires and the comparison
is plain `<`.  While loops are embedded with explicit fuel; every fuel
amount strictly dominates the loop's real iteration count, so the fuel-0
fallbacks are never taken. -/

/-- `npy_get_msb` (`npy_math.h`): `while (unum >>= 1) depth_limit++;`. -/
def msbAux : Nat → Nat → Nat
  | 0, _ => 0
  | fuel + 1, n => if n ≤ 1 then 0 else msbAux fuel (n / 2) + 1

/-- `npy_get_msb(num)`, the floor base-2 logarithm (`0` for `num ≤ 1`). -/
def npy_get_msb (n : Nat) : Nat := msbAux n n

/-- `INTP_SWAP(*i, *j)` on the index array. -/
def aswap (t : List Nat) (i j : Nat) : List Nat :=
  (t.set i (t.getD j 0)).set j (t.getD i 0)

/-- One step of the insertion sort inlined in `aquicksort_@suff@`: the inner
`while (pj > pl && @TYPE@_LT(vp, v[*pk])) { *pj-- = *pk--; }` shifts the
strictly greater tail of the sorted prefix one slot right and drops the new
index in front of it, i.e. it inserts the index before its first strictly
greater entry (and hence after all entries of equal key). -/
def insertAE (v : List ℚ) (x : Nat) : List Nat → List Nat
  | [] => [x]
  | y :: ys => if v.getD x 0 < v.getD y 0 then x :: y :: ys else y :: insertAE v x ys

/-- The insertion-sort loop `for (pi = pl + 1; pi <= pr; ++pi) ...`: each
index of the segment in turn is inserted into the sorted prefix. -/
def insertionArgsort (v : List ℚ) (t : List Nat) : List Nat :=
  t.foldl (fun acc x => insertAE v x acc) []

/-- The insertion sort acts on the segment `[pl, pr]` of the index array in
place and leaves the rest untouched. -/
def insertionSegment (v : List ℚ) (t : List Nat) (pl pr : Nat) : List Nat :=
  t.take pl ++ insertionArgsort v ((t.drop pl).take (pr + 1 - pl)) ++ t.drop (pr + 1)

/-- `do ++pi; while (@TYPE@_LT(v[*pi], vp));` of the partition scan. -/
def ascanFwd (v : List ℚ) (vp : ℚ) (t : List Nat) : Nat → Nat → Nat
  | 0, pi => pi + 1
  | fuel + 1, pi =>
    if v.getD (t.getD (pi + 1) 0) 0 < vp then ascanFwd v vp t fuel (pi + 1) else pi + 1

/-- `do --pj; while (@TYPE@_LT(vp, v[*pj]));` of the partition scan. -/
def ascanBack (v : List ℚ) (vp : ℚ) (t : List Nat) : Nat → Nat → Nat
  | 0, pj => pj - 1
  | fuel + 1, pj =>
    if vp < v.getD (t.getD (pj - 1) 0) 0 then ascanBack v vp t fuel (pj - 1) else pj - 1

/-- The Hoare scan loop `for (;;) { ..scans..; if (pi >= pj) break;
INTP_SWAP(*pi, *pj); }`; returns the array and the final `pi`. -/
def apartitionLoop (v : List ℚ) (vp : ℚ) : Nat → List Nat → Nat → Nat → List Nat × Nat
  | 0, t, pi, _ => (t, pi)
  | fuel + 1, t, pi, pj =>
    let pi' := ascanFwd v vp t t.length pi
    let pj' := ascanBack v vp t t.length pj
    if pj' ≤ pi' then (t, pi')
    else apartitionLoop v vp fuel (aswap t pi' pj') pi' pj'

/-- One partition of `aquicksort_@suff@`: median-of-3 pivot selection, pivot
parked at `pr - 1`, Hoare scans from both ends, pivot swapped into its final
slot `pi`. -/
def apartitionStep (v : List ℚ) (t : List Nat) (pl pr : Nat) : List Nat × Nat :=
  let pm := pl + (pr - pl) / 2
  let t1 := if v.getD (t.getD pm 0) 0 < v.getD (t.getD pl 0) 0 then aswap t pm pl else t
  let t2 := if v.getD (t1.getD pr 0) 0 < v.getD (t1.getD pm 0) 0 then aswap t1 pr pm else t1
  let t3 := if v.getD (t2.getD pm 0) 0 < v.getD (t2.getD pl 0) 0 then aswap t2 pm pl else t2
  let vp := v.getD (t3.getD pm 0) 0
  let t4 := aswap t3 pm (pr - 1)
  let s := apartitionLoop v vp (pr - pl + 1) t4 pl (pr - 1)
  (aswap s.1 s.2 (pr - 1), s.2)

/-- `a[k]` of `aheapsort_@suff@` (`a = tosort - 1`: 1-based heap indexing)
on the segment starting at `pl`. -/
def aheapGet (t : List Nat) (pl k : Nat) : Nat := t.getD (pl + k - 1) 0

/-- `a[k] = x` of `aheapsort_@suff@` on the segment starting at `pl`. -/
def aheapSet (t : List Nat) (pl k x : Nat) : List Nat := t.set (pl + k - 1) x

/-- The sift-down loop `for (i = l, j = l*2; j <= n;) { ... }; a[i] = tmp;`
shared by the heapify and extraction phases (`tmp` is the index whose value
is being sifted). -/
def asiftDown (v : List ℚ) (pl tmp nn : Nat) : Nat → List Nat → Nat → Nat → List Nat
  | 0, t, i, _ => aheapSet t pl i tmp
  | fuel + 1, t, i, j =>
    if j ≤ nn then
      let j' := if j < nn ∧ v.getD (aheapGet t pl j) 0 < v.getD (aheapGet t pl (j + 1)) 0
        then j + 1 else j
      if v.getD tmp 0 < v.getD (aheapGet t pl j') 0 then
        asiftDown v pl tmp nn fuel (aheapSet t pl i (aheapGet t pl j')) j' (j' + j')
      else aheapSet t pl i tmp
    else aheapSet t pl i tmp

/-- The heapify loop `for (l = n >> 1; l > 0; --l)`. -/
def aheapify (v : List ℚ) (pl nn : Nat) : Nat → List Nat → List Nat
  | 0, t => t
  | l + 1, t =>
    aheapify v pl nn l
      (asiftDown v pl (aheapGet t pl (l + 1)) nn (nn + 2) t (l + 1) ((l + 1) * 2))

/-- The extraction loop `for (; n > 1;)`: move the maximum `a[1]` behind the
shrinking heap and sift the displaced root value back down. -/
def aheapExtract (v : List ℚ) (pl : Nat) : Nat → List Nat → List Nat
  | 0, t => t
  | 1, t => t
  | n + 2, t =>
    let tmp := aheapGet t pl (n + 2)
    let t1 := aheapSet t pl (n + 2) (aheapGet t pl 1)
    aheapExtract v pl (n + 1) (asiftDown v pl tmp (n + 1) (n + 3) t1 1 2)

/-- `aheapsort_@suff@(vv, pl, pr - pl + 1, NULL)`: heapsort of the segment
of length `nn` starting at `pl`. -/
def aheapsortSeg (v : List ℚ) (t : List Nat) (pl nn : Nat) : List Nat :=
  aheapExtract v pl nn (aheapify v pl nn (nn / 2) t)

/-- The main loop of `aquicksort_@suff@`: partition while the segment holds
more than `SMALL_QUICKSORT = 15` entries past the first, switching to
`aheapsort` once `depth_limit-- < 0` (the single counter keeps decrementing
across segments); push the larger half on the stack and iterate into the
smaller; insertion-sort the small segments; pop until the stack empties. -/
def aquicksort (v : List ℚ) :
    Nat → List Nat → List (Nat × Nat) → Int → Nat → Nat → List Nat
  | 0, t, _, _, _, _ => t
  | fuel + 1, t, stack, depth, pl, pr =>
    if 15 < pr - pl then
      if depth < 0 then
        let t' := aheapsortSeg v t pl (pr - pl + 1)
        match stack with
        | [] => t'
        | (a, b) :: rest => aquicksort v fuel t' rest (depth - 1) a b
      else
        let s := apartitionStep v t pl pr
        if s.2 - pl < pr - s.2 then
          aquicksort v fuel s.1 ((s.2 + 1, pr) :: stack) (depth - 1) pl (s.2 - 1)
        else
          aquicksort v fuel s.1 ((pl, s.2 - 1) :: stack) (depth - 1) (s.2 + 1) pr
    else
      let t' := insertionSegment v t pl pr
      match stack with
      | [] => t'
      | (a, b) :: rest => aquicksort v fuel t' rest depth a b

/-- `non_nans.argsort(kind='quicksort')`: sort the index array
`np.arange(len(v))` by the values of `v`.  Every partition strictly shrinks
the uncovered index range and every pop removes a stack entry, so
`2 * length + 4` steps of the main loop always suffice. -/
def npArgsort (v : List ℚ) : List Nat :=
  aquicksort v (2 * v.length + 4) (List.range v.length)
    [] (2 * (npy_get_msb v.length : Int)) 0 (v.length - 1)

/-- Padding row for positional indexing (`rows.getD i padOpp`); the indexer
the pipeline produces is a permutation of `range rows.length`, so the pad is
never selected. -/
def padOpp : Opp :=
  { strategy := .polyYesKalNo, theoretical_cost := none, theoretical_return := none,
    theoretical_profit := 0, profit_pct := 0, buy_price := none, sell_price := none }

/-- `df.sort_values("profit_pct", ascending=False)` (line 210), i.e. pandas
`nargsort(values, kind="quicksort", ascending=False)` followed by a
positional take: reverse the values, `argsort` the reversal with numpy's
introsort, map the sorted positions through the reversed index array
`np.arange(n)[::-1]`, reverse that indexer, and take the rows in the
resulting order. -/
def sortValuesDescPct (rows : List Opp) : List Opp :=
  (((npArgsort ((rows.map Opp.profit_pct).reverse)).map
      (fun k => ((List.range rows.length).reverse).getD k 0)).reverse).map
    (fun i => rows.getD i padOpp)

/-!
Embedding of CPython's `difflib.SequenceMatcher` as instantiated by
`similarity` (line 52-53): `SequenceMatcher(None, a, b).ratio()`, i.e.
`isjunk=None` (so the junk set `bjunk` is empty) and `autojunk=True`.
-/

namespace Difflib

/-- Padding character used for out-of-range reads; every read in a real
execution is in range. -/
def padChar : Char := Char.ofNat 0

/-- Ascending list of the positions of `c` in `b` — one entry of the `b2j`
dict built by `SequenceMatcher.__chain_b` before junk purging. -/
def positions (b : List Char) (c : Char) : List Nat :=
  (List.range b.length).filter (fun j => b.getD j padChar == c)

/-- Autojunk popularity test of `__chain_b` (with `isjunk=None`): when
`len(b) >= 200`, characters occurring more than `len(b) // 100 + 1` times
are purged from `b2j`. -/
def isPopular (b : List Char) (c : Char) : Bool :=
  decide (200 ≤ b.length) && decide (b.length / 100 + 1 < b.count c)

/-- The purged `b2j` dict: positions of `c` in `b`, or `[]` for popular
characters (and for characters not occurring in `b`). -/
def b2j (b : List Char) (c : Char) : List Nat :=
  if isPopular b c then [] else positions b c

/-- The inner loop of `find_longest_match` over `b2j.get(a[i], [])`:
`j < blo` is `continue`, `j >= bhi` is `break` (the position list is
ascending), `k = newj2len[j] = j2len.get(j-1, 0) + 1`, and the best block is
updated exactly on strictly larger `k`.  Dicts are embedded as total maps
`Nat → Nat` defaulting to `0`, matching the `.get(_, 0)` reads; `j = 0` reads
the absent key `-1`, hence the explicit guard.  In every real execution
`k ≤ i + 1` and `k ≤ j + 1`, so the truncated subtractions `i + 1 - k` and
`j + 1 - k` agree with Python's `i-k+1` and `j-k+1`. -/
def flmRow (j2len : Nat → Nat) (blo bhi i : Nat) :
    List Nat → (Nat × Nat × Nat) → (Nat → Nat) → ((Nat × Nat × Nat) × (Nat → Nat))
  | [], best, new => (best, new)
  | j :: js, best, new =>
    if j < blo then flmRow j2len blo bhi i js best new
    else if bhi ≤ j then (best, new)
    else
      let k := (if j = 0 then 0 else j2len (j - 1)) + 1
      let new' := Function.update new j k
      let best' := if best.2.2 < k then (i + 1 - k, j + 1 - k, k) else best
      flmRow j2len blo bhi i js best' new'

/-- The outer loop `for i in range(alo, ahi)` of `find_longest_match`:
each row starts a fresh `newj2len` and installs it as `j2len` afterwards. -/
def flmRows (a b : List Char) (blo bhi : Nat) :
    List Nat → (Nat × Nat × Nat) → (Nat → Nat) → (Nat × Nat × Nat)
  | [], best, _ => best
  | i :: rest, best, j2len =>
    let st := flmRow j2len blo bhi i (b2j b (a.getD i padChar)) best (fun _ => 0)
    flmRows a b blo bhi rest st.1 st.2

/-- The first `while` loop of `find_longest_match`: extend the best block
backwards over equal elements (`bjunk` is empty, so `not isbjunk(...)` always
holds).  `fuel` only forces termination; `bi` iterations always suffice since
each step decrements `bi`. -/
def extendBack (a b : List Char) (alo blo : Nat) :
    Nat → (Nat × Nat × Nat) → (Nat × Nat × Nat)
  | 0, st => st
  | fuel + 1, (bi, bj, bs) =>
    if alo < bi ∧ blo < bj ∧ a.getD (bi - 1) padChar = b.getD (bj - 1) padChar then
      extendBack a b alo blo fuel (bi - 1, bj - 1, bs + 1)
    else (bi, bj, bs)

/-- The second `while` loop of `find_longest_match`: extend the best block
forwards over equal elements.  `fuel = ahi` always suffices since each step
increments `bi + bs < ahi`. -/
def extendFwd (a b : List Char) (ahi bhi : Nat) :
    Nat → (Nat × Nat × Nat) → (Nat × Nat × Nat)
  | 0, st => st
  | fuel + 1, (bi, bj, bs) =>
    if bi + bs < ahi ∧ bj + bs < bhi ∧ a.getD (bi + bs) padChar = b.getD (bj + bs) padChar then
      extendFwd a b ahi bhi fuel (bi, bj, bs + 1)
    else (bi, bj, bs)

/-- `find_longest_match(alo, ahi, blo, bhi)` with `isjunk=None`: the DP over
rows, then the two non-junk extension loops.  The final two junk-extension
`while` loops of the source require `isbjunk(...)` and never fire with an
empty `bjunk`; they are identities here. -/
def find_longest_match (a b : List Char) (alo ahi blo bhi : Nat) : Nat × Nat × Nat :=
  let best := flmRows a b blo bhi (List.range' alo (ahi - alo)) (alo, blo, 0) (fun _ => 0)
  let best' := extendBack a b alo blo best.1 best
  extendFwd a b ahi bhi ahi best'

/-- The window recursion of `get_matching_blocks`.  The source drives it with
an explicit LIFO queue and sorts the collected blocks afterwards; the
recursion below visits exactly the same windows and yields the same multiset
of blocks (in sorted order).  `fuel` only forces termination:
`la + lb + 1` always suffices because each sub-window is strictly smaller. -/
def blocksAux (a b : List Char) : Nat → Nat → Nat → Nat → Nat → List (Nat × Nat × Nat)
  | 0, _, _, _, _ => []
  | fuel + 1, alo, ahi, blo, bhi =>
    let m := find_longest_match a b alo ahi blo bhi
    if m.2.2 = 0 then []
    else
      (if alo < m.1 ∧ blo < m.2.1 then blocksAux a b fuel alo m.1 blo m.2.1 else []) ++
        m :: (if m.1 + m.2.2 < ahi ∧ m.2.1 + m.2.2 < bhi then
                blocksAux a b fuel (m.1 + m.2.2) ahi (m.2.1 + m.2.2) bhi
              else [])

/-- `matches = sum(triple[-1] for triple in self.get_matching_blocks())`:
total size of all matching blocks.  The adjacent-block collapsing and the
`(la, lb, 0)` sentinel appended by `get_matching_blocks` do not change this
sum. -/
def totalMatches (a b : List Char) : Nat :=
  ((blocksAux a b (a.length + b.length + 1) 0 a.length 0 b.length).map
    (fun m => m.2.2)).sum

/-- `SequenceMatcher(None, a, b).ratio()`, via `_calculate_ratio`:
`2.0 * matches / (len(a) + len(b))`, and `1.0` when both are empty. -/
def ratio (a b : List Char) : ℚ :=
  if a.length + b.length ≠ 0 then
    2 * (totalMatches a b : ℚ) / ((a.length : ℚ) + (b.length : ℚ))
  else 1

end Difflib

/-- `similarity(a, b)` of `detect_arbitrage.py` lines 52-53. -/
def similarity (a b : String) : ℚ := Difflib.ratio a.data b.data

/-- One matched pair appended by `find_matching_events` (lines 77-84). -/
structure EventMatch where
  polymarket : PolyRec
  kalshi : KalRec
  similarity : ℚ
  event_name : String
deriving DecidableEq, Repr

/-- `find_matching_events` (lines 56-86), with the module constant
`MATCH_THRESHOLD` passed explicitly: the nested loops with the two
`if not name: continue` guards and the `score >= threshold` test. -/
def find_matching_events (polys : List PolyRec) (kals : List KalRec)
    (threshold : ℚ) : List EventMatch :=
  polys.flatMap fun poly =>
    let poly_name := normalize_event_name poly.event_name
    if poly_name = "" then []
    else
      kals.flatMap fun kal =>
        let kal_name := normalize_event_name kal.event_name
        if kal_name = "" then []
        else
          let score := similarity poly_name kal_name
          if threshold ≤ score then
            [{ polymarket := poly, kalshi := kal, similarity := score,
               event_name := poly.event_name }]
          else []

/-- The core of `detect_arbitrage` (lines 167-212): match, evaluate every
matched pair (skipping pairs with a zero price), and sort all rows by
`profit_pct` descending.  The report-only fields appended to each row on
lines 192-203 (event name, prices, fees) affect no claim and are left off
`Opp`. -/
def detect_arbitrage_rows (polys : List PolyRec) (kals : List KalRec)
    (threshold pfee kfee : ℚ) : List Opp :=
  sortValuesDescPct
    ((find_matching_events polys kals threshold).flatMap fun m =>
      processPair m.polymarket m.kalshi pfee kfee)

/-- Line 105: `cost_a = poly_yes * (1 + POLYMARKET_FEE) + kalshi_no * (1 + KALSHI_FEE)`. -/
def cost_a (poly_yes kalshi_no pfee kfee : ℚ) : ℚ :=
  poly_yes * (1 + pfee) + kalshi_no * (1 + kfee)

/-- Line 119: `cost_b = poly_no * (1 + POLYMARKET_FEE) + kalshi_yes * (1 + KALSHI_FEE)`. -/
def cost_b (poly_no kalshi_yes pfee kfee : ℚ) : ℚ :=
  poly_no * (1 + pfee) + kalshi_yes * (1 + kfee)

/-- Line 138: the profit of the first spread strategy. -/
def profit3 (poly_yes kalshi_yes pfee kfee : ℚ) : ℚ :=
  kalshi_yes - poly_yes - poly_yes * pfee - kalshi_yes * kfee

/-- Line 152: the profit of the second spread strategy. -/
def profit4 (poly_yes kalshi_yes pfee kfee : ℚ) : ℚ :=
  poly_yes - kalshi_yes - kalshi_yes * kfee - poly_yes * pfee

/-- The record appended by the strategy-A block (lines 108-116). -/
def oppA (poly_yes kalshi_no pfee kfee : ℚ) : Opp :=
  { strategy := .polyYesKalNo
    theoretical_cost := some (cost_a poly_yes kalshi_no pfee kfee)
    theoretical_return := some 1
    theoretical_profit := 1 - cost_a poly_yes kalshi_no pfee kfee
    profit_pct := if cost_a poly_yes kalshi_no pfee kfee ≠ 0 then
        (1 - cost_a poly_yes kalshi_no pfee kfee) / cost_a poly_yes kalshi_no pfee kfee * 100
      else 0
    buy_price := none
    sell_price := none }

/-- The record appended by the strategy-B block (lines 122-130). -/
def oppB (poly_no kalshi_yes pfee kfee : ℚ) : Opp :=
  { strategy := .polyNoKalYes
    theoretical_cost := some (cost_b poly_no kalshi_yes pfee kfee)
    theoretical_return := some 1
    theoretical_profit := 1 - cost_b poly_no kalshi_yes pfee kfee
    profit_pct := if cost_b poly_no kalshi_yes pfee kfee ≠ 0 then
        (1 - cost_b poly_no kalshi_yes pfee kfee) / cost_b poly_no kalshi_yes pfee kfee * 100
      else 0
    buy_price := none
    sell_price := none }

/-- The record appended by the first spread block (lines 140-148). -/
def opp3 (poly_yes kalshi_yes pfee kfee : ℚ) : Opp :=
  { strategy := .spreadPolyYes
    theoretical_cost := none
    theoretical_return := none
    theoretical_profit := profit3 poly_yes kalshi_yes pfee kfee
    profit_pct := if poly_yes ≠ 0 then
        profit3 poly_yes kalshi_yes pfee kfee / poly_yes * 100
      else 0
    buy_price := some poly_yes
    sell_price := some kalshi_yes }

/-- The record appended by the second spread block (lines 154-162). -/
def opp4 (poly_yes kalshi_yes pfee kfee : ℚ) : Opp :=
  { strategy := .spreadKalYes
    theoretical_cost := none
    theoretical_return := none
    theoretical_profit := profit4 poly_yes kalshi_yes pfee kfee
    profit_pct := if kalshi_yes ≠ 0 then
        profit4 poly_yes kalshi_yes pfee kfee / kalshi_yes * 100
      else 0
    buy_price := some kalshi_yes
    sell_price := some poly_yes }

/-! ## Theorems -/

/-- The evaluator's output, written as the concatenation of its four guarded
singleton blocks. -/
theorem calculate_arbitrage_eq (py pn ky kn pf kf : ℚ) :
    calculate_arbitrage py pn ky kn pf kf =
      (if 0 < cost_a py kn pf kf ∧ cost_a py kn pf kf < 1 then [oppA py kn pf kf] else []) ++
      (if 0 < cost_b pn ky pf kf ∧ cost_b pn ky pf kf < 1 then [oppB pn ky pf kf] else []) ++
      (if 0 < py ∧ 0 < ky then
        (if py < ky * (1 - kf - pf) then
          (if 0 < profit3 py ky pf kf then [opp3 py ky pf kf] else []) else []) ++
        (if ky < py * (1 - kf - pf) then
          (if 0 < profit4 py ky pf kf then [opp4 py ky pf kf] else []) else [])
      else []) := rfl

/-- Membership in a conditionally-empty list. -/
theorem mem_ite_nil {α : Type} {o : α} {c : Prop} [Decidable c] {l : List α} :
    (o ∈ if c then l else []) ↔ c ∧ o ∈ l := by
  split_ifs with h <;> simp [h]

/-- Membership in the evaluator's output: each of the four strategy blocks
contributes its record exactly under its source emit condition. -/
theorem mem_calculate_arbitrage_iff (py pn ky kn pf kf : ℚ) (o : Opp) :
    o ∈ calculate_arbitrage py pn ky kn pf kf ↔
      (0 < cost_a py kn pf kf ∧ cost_a py kn pf kf < 1 ∧ o = oppA py kn pf kf) ∨
      (0 < cost_b pn ky pf kf ∧ cost_b pn ky pf kf < 1 ∧ o = oppB pn ky pf kf) ∨
      (0 < py ∧ 0 < ky ∧ py < ky * (1 - kf - pf) ∧ 0 < profit3 py ky pf kf ∧
        o = opp3 py ky pf kf) ∨
      (0 < py ∧ 0 < ky ∧ ky < py * (1 - kf - pf) ∧ 0 < profit4 py ky pf kf ∧
        o = opp4 py ky pf kf) := by
  rw [calculate_arbitrage_eq]
  simp only [List.mem_append, mem_ite_nil, List.mem_singleton]
  constructor
  · rintro ((⟨⟨h1, h2⟩, h3⟩ | ⟨⟨h1, h2⟩, h3⟩) |
      ⟨⟨h1, h2⟩, (⟨h3, h4, h5⟩ | ⟨h3, h4, h5⟩)⟩)
    · exact Or.inl ⟨h1, h2, h3⟩
    · exact Or.inr (Or.inl ⟨h1, h2, h3⟩)
    · exact Or.inr (Or.inr (Or.inl ⟨h1, h2, h3, h4, h5⟩))
    · exact Or.inr (Or.inr (Or.inr ⟨h1, h2, h3, h4, h5⟩))
  · rintro (⟨h1, h2, h3⟩ | ⟨h1, h2, h3⟩ |
      ⟨h1, h2, h3, h4, h5⟩ | ⟨h1, h2, h3, h4, h5⟩)
    · exact Or.inl (Or.inl ⟨⟨h1, h2⟩, h3⟩)
    · exact Or.inl (Or.inr ⟨⟨h1, h2⟩, h3⟩)
    · exact Or.inr ⟨⟨h1, h2⟩, Or.inl ⟨h3, h4, h5⟩⟩
    · exact Or.inr ⟨⟨h1, h2⟩, Or.inr ⟨h3, h4, h5⟩⟩

/-- **C1.** For every input, the evaluator emits the cross-outcome strategy-1
record (Buy A-YES + Buy B-NO) exactly when
`cost = a_yes*(1+a_fee) + b_no*(1+b_fee)` satisfies `0 < cost < 1`, and
symmetrically for strategy 2 (Buy A-NO + Buy B-YES); each such record carries
`theoretical_return = 1`, `theoretical_profit = 1 - cost` and
`profit_pct = profit / cost * 100`.  In particular, for `a_yes = 0.40`,
`b_no = 0.45`, `a_fee = 0.02`, `b_fee = 0.01` the strategy-1 cost is
`0.8625`, the profit `0.1375`, and `profit_pct` lies in `[15.94, 15.95)`. -/
theorem claim_C1_cross_outcome :
    (∀ py pn ky kn pf kf : ℚ,
      ((∃ o ∈ calculate_arbitrage py pn ky kn pf kf, o.strategy = .polyYesKalNo) ↔
        0 < cost_a py kn pf kf ∧ cost_a py kn pf kf < 1) ∧
      ((∃ o ∈ calculate_arbitrage py pn ky kn pf kf, o.strategy = .polyNoKalYes) ↔
        0 < cost_b pn ky pf kf ∧ cost_b pn ky pf kf < 1) ∧
      (∀ o ∈ calculate_arbitrage py pn ky kn pf kf,
        (o.strategy = .polyYesKalNo →
          o.theoretical_cost = some (cost_a py kn pf kf) ∧
          o.theoretical_return = some 1 ∧
          o.theoretical_profit = 1 - cost_a py kn pf kf ∧
          o.profit_pct = (1 - cost_a py kn pf kf) / cost_a py kn pf kf * 100) ∧
        (o.strategy = .polyNoKalYes →
          o.theoretical_cost = some (cost_b pn ky pf kf) ∧
          o.theoretical_return = some 1 ∧
          o.theoretical_profit = 1 - cost_b pn ky pf kf ∧
          o.profit_pct = (1 - cost_b pn ky pf kf) / cost_b pn ky pf kf * 100))) ∧
    (cost_a (40/100) (45/100) (2/100) (1/100) = 8625/10000 ∧
      ∃ o ∈ calculate_arbitrage (40/100) (1/2) (1/2) (45/100) (2/100) (1/100),
        o.strategy = .polyYesKalNo ∧ o.theoretical_profit = 1375/10000 ∧
        1594/100 ≤ o.profit_pct ∧ o.profit_pct < 1595/100) := by
  constructor
  · intro py pn ky kn pf kf
    refine ⟨⟨?_, ?_⟩, ⟨?_, ?_⟩, ?_⟩
    · rintro ⟨o, ho, hs⟩
      rw [mem_calculate_arbitrage_iff] at ho
      rcases ho with ⟨h1, h2, rfl⟩ | ⟨h1, h2, rfl⟩ | ⟨h1, h2, h3, h4, rfl⟩ |
        ⟨h1, h2, h3, h4, rfl⟩ <;> simp [oppA, oppB, opp3, opp4] at hs ⊢
      exact ⟨h1, h2⟩
    · rintro ⟨h1, h2⟩
      exact ⟨oppA py kn pf kf,
        (mem_calculate_arbitrage_iff py pn ky kn pf kf _).mpr (Or.inl ⟨h1, h2, rfl⟩), rfl⟩
    · rintro ⟨o, ho, hs⟩
      rw [mem_calculate_arbitrage_iff] at ho
      rcases ho with ⟨h1, h2, rfl⟩ | ⟨h1, h2, rfl⟩ | ⟨h1, h2, h3, h4, rfl⟩ |
        ⟨h1, h2, h3, h4, rfl⟩ <;> simp [oppA, oppB, opp3, opp4] at hs ⊢
      exact ⟨h1, h2⟩
    · rintro ⟨h1, h2⟩
      exact ⟨oppB pn ky pf kf,
        (mem_calculate_arbitrage_iff py pn ky kn pf kf _).mpr
          (Or.inr (Or.inl ⟨h1, h2, rfl⟩)), rfl⟩
    · intro o ho
      rw [mem_calculate_arbitrage_iff] at ho
      rcases ho with ⟨h1, h2, rfl⟩ | ⟨h1, h2, rfl⟩ | ⟨h1, h2, h3, h4, rfl⟩ |
        ⟨h1, h2, h3, h4, rfl⟩
      · exact ⟨fun _ => ⟨rfl, rfl, rfl, by simp [oppA, h1.ne']⟩,
          fun hs => by simp [oppA] at hs⟩
      · exact ⟨fun hs => by simp [oppB] at hs,
          fun _ => ⟨rfl, rfl, rfl, by simp [oppB, h1.ne']⟩⟩
      · exact ⟨fun hs => by simp [opp3] at hs, fun hs => by simp [opp3] at hs⟩
      · exact ⟨fun hs => by simp [opp4] at hs, fun hs => by simp [opp4] at hs⟩
  · constructor
    · norm_num [cost_a]
    · refine ⟨oppA (40/100) (45/100) (2/100) (1/100),
        (mem_calculate_arbitrage_iff _ _ _ _ _ _ _).mpr (Or.inl ⟨?_, ?_, rfl⟩),
        rfl, ?_, ?_, ?_⟩ <;> norm_num [oppA, cost_a]

/-- **C2.** For every input with `a_yes > 0` and `b_yes > 0`, the evaluator
emits the spread strategy-3 record exactly when
`a_yes < b_yes * (1 - a_fee - b_fee)` and its profit
`b_yes - a_yes - a_yes*a_fee - b_yes*b_fee` is strictly positive, with
`profit_pct = profit / a_yes * 100`; strategy 4 is the mirror image.  In
particular, for `a_yes = 0.30`, `b_yes = 0.40`, `a_fee = 0.02`,
`b_fee = 0.01` strategy 3 is emitted with profit `0.09` and
`profit_pct = 30`. -/
theorem claim_C2_spread_strategies :
    (∀ py pn ky kn pf kf : ℚ, 0 < py → 0 < ky →
      ((∃ o ∈ calculate_arbitrage py pn ky kn pf kf, o.strategy = .spreadPolyYes) ↔
        (py < ky * (1 - pf - kf) ∧ 0 < profit3 py ky pf kf)) ∧
      ((∃ o ∈ calculate_arbitrage py pn ky kn pf kf, o.strategy = .spreadKalYes) ↔
        (ky < py * (1 - pf - kf) ∧ 0 < profit4 py ky pf kf)) ∧
      (∀ o ∈ calculate_arbitrage py pn ky kn pf kf,
        (o.strategy = .spreadPolyYes →
          o.theoretical_profit = profit3 py ky pf kf ∧
          o.profit_pct = profit3 py ky pf kf / py * 100) ∧
        (o.strategy = .spreadKalYes →
          o.theoretical_profit = profit4 py ky pf kf ∧
          o.profit_pct = profit4 py ky pf kf / ky * 100))) ∧
    (∃ o ∈ calculate_arbitrage (30/100) (1/2) (40/100) (1/2) (2/100) (1/100),
      o.strategy = .spreadPolyYes ∧ o.theoretical_profit = 9/100 ∧
      o.profit_pct = 30) := by
  have hcomm : ∀ pf kf : ℚ, 1 - pf - kf = 1 - kf - pf := fun pf kf => by ring
  constructor
  · intro py pn ky kn pf kf hpy hky
    refine ⟨⟨?_, ?_⟩, ⟨?_, ?_⟩, ?_⟩
    · rintro ⟨o, ho, hs⟩
      rw [mem_calculate_arbitrage_iff] at ho
      rcases ho with ⟨h1, h2, rfl⟩ | ⟨h1, h2, rfl⟩ | ⟨h1, h2, h3, h4, rfl⟩ |
        ⟨h1, h2, h3, h4, rfl⟩ <;> simp [oppA, oppB, opp3, opp4] at hs ⊢
      exact ⟨by rw [hcomm]; exact h3, h4⟩
    · rintro ⟨h1, h2⟩
      refine ⟨opp3 py ky pf kf, (mem_calculate_arbitrage_iff py pn ky kn pf kf _).mpr
        (Or.inr (Or.inr (Or.inl ⟨hpy, hky, ?_, h2, rfl⟩))), rfl⟩
      rw [← hcomm]; exact h1
    · rintro ⟨o, ho, hs⟩
      rw [mem_calculate_arbitrage_iff] at ho
      rcases ho with ⟨h1, h2, rfl⟩ | ⟨h1, h2, rfl⟩ | ⟨h1, h2, h3, h4, rfl⟩ |
        ⟨h1, h2, h3, h4, rfl⟩ <;> simp [oppA, oppB, opp3, opp4] at hs ⊢
      exact ⟨by rw [hcomm]; exact h3, h4⟩
    · rintro ⟨h1, h2⟩
      refine ⟨opp4 py ky pf kf, (mem_calculate_arbitrage_iff py pn ky kn pf kf _).mpr
        (Or.inr (Or.inr (Or.inr ⟨hpy, hky, ?_, h2, rfl⟩))), rfl⟩
      rw [← hcomm]; exact h1
    · intro o ho
      rw [mem_calculate_arbitrage_iff] at ho
      rcases ho with ⟨h1, h2, rfl⟩ | ⟨h1, h2, rfl⟩ | ⟨h1, h2, h3, h4, rfl⟩ |
        ⟨h1, h2, h3, h4, rfl⟩
      · exact ⟨fun hs => by simp [oppA] at hs, fun hs => by simp [oppA] at hs⟩
      · exact ⟨fun hs => by simp [oppB] at hs, fun hs => by simp [oppB] at hs⟩
      · exact ⟨fun _ => ⟨rfl, by simp [opp3, hpy.ne']⟩,
          fun hs => by simp [opp3] at hs⟩
      · exact ⟨fun hs => by simp [opp4] at hs,
          fun _ => ⟨rfl, by simp [opp4, hky.ne']⟩⟩
  · refine ⟨opp3 (30/100) (40/100) (2/100) (1/100),
      (mem_calculate_arbitrage_iff _ _ _ _ _ _ _).mpr
        (Or.inr (Or.inr (Or.inl ⟨by norm_num, by norm_num, by norm_num,
          by norm_num [profit3], rfl⟩))),
      rfl, by norm_num [opp3, profit3], by norm_num [opp3, profit3]⟩

/-- **C2 witness.**  Instantiation of the strategy-3 "exactly when" clause at
the concrete prices of the claim's example. -/
theorem claim_C2_spread_strategies_witness :
    (∃ o ∈ calculate_arbitrage (30/100) (1/2) (40/100) (1/2) (2/100) (1/100),
      o.strategy = .spreadPolyYes) ↔
      ((30 : ℚ)/100 < (40/100) * (1 - 2/100 - 1/100) ∧
        0 < profit3 (30/100) (40/100) (2/100) (1/100)) :=
  (claim_C2_spread_strategies.1 (30/100) (1/2) (40/100) (1/2) (2/100) (1/100)
    (by norm_num) (by norm_num)).1

/-- **C3.** If any one of a matched pair's four prices equals `0`, the pair's
strategy evaluation yields no opportunities: the `if not (...)` guard of
`detect_arbitrage` skips the pair before `calculate_arbitrage` runs. -/
theorem claim_C3_zero_price_empty (py pn ky kn pfee kfee : ℚ)
    (h : py = 0 ∨ pn = 0 ∨ ky = 0 ∨ kn = 0) :
    processPairPrices py pn ky kn pfee kfee = [] := by
  unfold processPairPrices
  rcases h with h | h | h | h <;> simp [h]

/-- **C3 witness.** -/
theorem claim_C3_zero_price_empty_witness :
    processPairPrices 0 (1/2) (1/2) (1/2) (2/100) (1/100) = [] :=
  claim_C3_zero_price_empty 0 (1/2) (1/2) (1/2) (2/100) (1/100) (Or.inl rfl)

/-- **C8 counterexample.** The claim as stated fails on the code: with
`a_yes = 0.30`, `a_no = 0.70`, `b_yes = 0.40`, `b_no = 0.60` and the default
fees, the evaluator emits a spread record whose dict carries no
`theoretical_cost` key at all, so "every emitted opportunity has
`0 < theoretical_cost < 1`" is false. -/
theorem claim_C8_counterexample :
    ¬(∀ o ∈ calculate_arbitrage (30/100) (70/100) (40/100) (60/100) (2/100) (1/100),
        0 < o.theoretical_profit ∧
        ∃ c, o.theoretical_cost = some c ∧ 0 < c ∧ c < 1) := by
  intro h
  have hm : opp3 (30/100) (40/100) (2/100) (1/100) ∈
      calculate_arbitrage (30/100) (70/100) (40/100) (60/100) (2/100) (1/100) :=
    (mem_calculate_arbitrage_iff _ _ _ _ _ _ _).mpr
      (Or.inr (Or.inr (Or.inl ⟨by norm_num, by norm_num, by norm_num,
        by norm_num [profit3], rfl⟩)))
  rcases (h _ hm).2 with ⟨c, hc, _⟩
  simp [opp3] at hc

/-- **C8 (amended).** Every opportunity emitted by the evaluator has
`theoretical_profit > 0`; its `theoretical_cost` key, when present, lies
strictly between `0` and `1`; and the key is absent exactly for the two
spread strategies.  Inputs failing an emit condition produce no record at
all. -/
theorem claim_C8_amended_profit_cost_invariants (py pn ky kn pf kf : ℚ) :
    ∀ o ∈ calculate_arbitrage py pn ky kn pf kf,
      0 < o.theoretical_profit ∧
      (∀ c, o.theoretical_cost = some c → 0 < c ∧ c < 1) ∧
      (o.theoretical_cost = none ↔
        (o.strategy = .spreadPolyYes ∨ o.strategy = .spreadKalYes)) := by
  intro o ho
  rw [mem_calculate_arbitrage_iff] at ho
  rcases ho with ⟨h1, h2, rfl⟩ | ⟨h1, h2, rfl⟩ | ⟨h1, h2, h3, h4, rfl⟩ |
    ⟨h1, h2, h3, h4, rfl⟩
  · refine ⟨by simp only [oppA]; linarith, fun c hc => ?_, by simp [oppA]⟩
    simp only [oppA, Option.some.injEq] at hc
    rw [← hc]; exact ⟨h1, h2⟩
  · refine ⟨by simp only [oppB]; linarith, fun c hc => ?_, by simp [oppB]⟩
    simp only [oppB, Option.some.injEq] at hc
    rw [← hc]; exact ⟨h1, h2⟩
  · exact ⟨h4, fun c hc => by simp [opp3] at hc, by simp [opp3]⟩
  · exact ⟨h4, fun c hc => by simp [opp4] at hc, by simp [opp4]⟩

/-- **C8 witness.**  Instantiation of the amended invariant at the strategy-1
record of a concrete input. -/
theorem claim_C8_amended_profit_cost_invariants_witness :
    0 < (oppA (40/100) (45/100) (2/100) (1/100)).theoretical_profit ∧
    (∀ c, (oppA (40/100) (45/100) (2/100) (1/100)).theoretical_cost = some c →
      0 < c ∧ c < 1) ∧
    ((oppA (40/100) (45/100) (2/100) (1/100)).theoretical_cost = none ↔
      ((oppA (40/100) (45/100) (2/100) (1/100)).strategy = .spreadPolyYes ∨
        (oppA (40/100) (45/100) (2/100) (1/100)).strategy = .spreadKalYes)) :=
  claim_C8_amended_profit_cost_invariants (40/100) (1/2) (1/2) (45/100)
    (2/100) (1/100) _
    ((mem_calculate_arbitrage_iff _ _ _ _ _ _ _).mpr
      (Or.inl ⟨by norm_num [cost_a], by norm_num [cost_a], rfl⟩))

/-- **C9.** With both YES prices strictly positive and both fee rates
non-negative, the two spread strategies are mutually exclusive (their guards
`a_yes < b_yes*(1-a_fee-b_fee)` and `b_yes < a_yes*(1-a_fee-b_fee)` cannot
hold together when the fee factor is at most 1), so one evaluator call emits
at most four opportunities and at most one per strategy. -/
theorem claim_C9_spreads_mutually_exclusive (py pn ky kn pf kf : ℚ)
    (hpy : 0 < py) (hky : 0 < ky) (hpf : 0 ≤ pf) (hkf : 0 ≤ kf) :
    ¬((∃ o ∈ calculate_arbitrage py pn ky kn pf kf, o.strategy = .spreadPolyYes) ∧
      (∃ o ∈ calculate_arbitrage py pn ky kn pf kf, o.strategy = .spreadKalYes)) ∧
    (calculate_arbitrage py pn ky kn pf kf).length ≤ 4 ∧
    (∀ s : Strategy,
      ((calculate_arbitrage py pn ky kn pf kf).filter
        (fun o => o.strategy == s)).length ≤ 1) := by
  refine ⟨?_, ?_, ?_⟩
  · rintro ⟨⟨o3, ho3, hs3⟩, ⟨o4, ho4, hs4⟩⟩
    rw [mem_calculate_arbitrage_iff] at ho3 ho4
    rcases ho3 with ⟨h1, h2, rfl⟩ | ⟨h1, h2, rfl⟩ | ⟨h1, h2, h3, h4, rfl⟩ |
      ⟨h1, h2, h3, h4, rfl⟩ <;> simp [oppA, oppB, opp3, opp4] at hs3
    rcases ho4 with ⟨g1, g2, rfl⟩ | ⟨g1, g2, rfl⟩ | ⟨g1, g2, g3, g4, rfl⟩ |
      ⟨g1, g2, g3, g4, rfl⟩ <;> simp [oppA, oppB, opp3, opp4] at hs4
    nlinarith [sq_nonneg (py - ky), mul_pos hpy hky]
  · rw [calculate_arbitrage_eq]
    split_ifs <;> simp
  · intro s
    have hbeq : ∀ s t : Strategy, (s == t) = decide (s = t) := fun s t => rfl
    rw [calculate_arbitrage_eq]
    split_ifs <;> cases s <;>
      simp [oppA, oppB, opp3, opp4, List.filter_append, List.filter, hbeq]

/-- **C9 witness.** -/
theorem claim_C9_spreads_mutually_exclusive_witness :
    ¬((∃ o ∈ calculate_arbitrage (1/2) (1/2) (1/2) (1/2) (2/100) (1/100),
        o.strategy = .spreadPolyYes) ∧
      (∃ o ∈ calculate_arbitrage (1/2) (1/2) (1/2) (1/2) (2/100) (1/100),
        o.strategy = .spreadKalYes)) ∧
    (calculate_arbitrage (1/2) (1/2) (1/2) (1/2) (2/100) (1/100)).length ≤ 4 ∧
    (∀ s : Strategy,
      ((calculate_arbitrage (1/2) (1/2) (1/2) (1/2) (2/100) (1/100)).filter
        (fun o => o.strategy == s)).length ≤ 1) :=
  claim_C9_spreads_mutually_exclusive (1/2) (1/2) (1/2) (1/2) (2/100) (1/100)
    (by norm_num) (by norm_num) (by norm_num) (by norm_num)

/-- **C10.** The Kalshi side of a matched pair prefers the `yes_mid`/`no_mid`
keys and falls back to `yes_price`/`no_price` only when the mid key is
absent; every falsy value (`None`, `0`, `""`) on the chosen chain is coerced
to `0` by `or 0`, and a zero extracted price makes the whole pair yield no
opportunities. -/
theorem claim_C10_kalshi_price_extraction :
    (∀ (k : KalRec) (v : PyVal), k.yes_mid = some v →
      kalYesPrice k = pyFloatOr0 v) ∧
    (∀ k : KalRec, k.yes_mid = none →
      kalYesPrice k = pyFloatOr0 (k.yes_price.getD (.num 0))) ∧
    (∀ (k : KalRec) (v : PyVal), k.no_mid = some v →
      kalNoPrice k = pyFloatOr0 v) ∧
    (∀ k : KalRec, k.no_mid = none →
      kalNoPrice k = pyFloatOr0 (k.no_price.getD (.num 0))) ∧
    (∀ v : PyVal, v.truthy = false → pyFloatOr0 v = 0) ∧
    (∀ (poly : PolyRec) (k : KalRec) (pf kf : ℚ),
      kalYesPrice k = 0 ∨ kalNoPrice k = 0 → processPair poly k pf kf = []) := by
  refine ⟨?_, ?_, ?_, ?_, ?_, ?_⟩
  · intro k v h; simp [kalYesPrice, h]
  · intro k h; simp [kalYesPrice, h]
  · intro k v h; simp [kalNoPrice, h]
  · intro k h; simp [kalNoPrice, h]
  · intro v h; simp [pyFloatOr0, h]
  · intro poly k pf kf h
    unfold processPair processPairPrices
    rcases h with h | h <;> simp [h]

/-- **C10 witness.**  A record carrying `yes_mid = None` and a positive
`yes_price` still extracts `0` (the fallback is not consulted), and the pair
is skipped. -/
theorem claim_C10_kalshi_price_extraction_witness :
    kalYesPrice
      { event_name := "e", yes_mid := some .null, no_mid := some (.num (1/2)),
        yes_price := some (.num (1/2)), no_price := some (.num (1/2)) } =
      pyFloatOr0 .null ∧
    processPair
      { event_name := "e", yes_price := some (.num (1/2)),
        no_price := some (.num (1/2)) }
      { event_name := "e", yes_mid := some .null, no_mid := some (.num (1/2)),
        yes_price := some (.num (1/2)), no_price := some (.num (1/2)) }
      (2/100) (1/100) = [] :=
  ⟨claim_C10_kalshi_price_extraction.1 _ .null rfl,
    claim_C10_kalshi_price_extraction.2.2.2.2.2 _ _ (2/100) (1/100)
      (Or.inl (by decide))⟩

/-- The filter condition of the matcher's qualifying pairs: both normalized
names non-empty and similarity at or above the threshold. -/
def matcherCond (th : ℚ) (pk : PolyRec × KalRec) : Bool :=
  decide (normalize_event_name pk.1.event_name ≠ "") &&
  decide (normalize_event_name pk.2.event_name ≠ "") &&
  decide (th ≤ similarity (normalize_event_name pk.1.event_name)
    (normalize_event_name pk.2.event_name))

/-- The `EventMatch` record built from a qualifying pair (lines 77-84). -/
def matcherMk (pk : PolyRec × KalRec) : EventMatch :=
  { polymarket := pk.1, kalshi := pk.2,
    similarity := similarity (normalize_event_name pk.1.event_name)
      (normalize_event_name pk.2.event_name),
    event_name := pk.1.event_name }

/-- Unfolding of the matcher's outer loop on a cons cell. -/
theorem find_matching_events_cons (p : PolyRec) (ps : List PolyRec)
    (kals : List KalRec) (th : ℚ) :
    find_matching_events (p :: ps) kals th =
      (if normalize_event_name p.event_name = "" then []
       else kals.flatMap fun kal =>
         if normalize_event_name kal.event_name = "" then []
         else if th ≤ similarity (normalize_event_name p.event_name)
             (normalize_event_name kal.event_name) then [matcherMk (p, kal)]
         else []) ++ find_matching_events ps kals th := rfl

/-- Inner loop of the matcher for one `poly` record with a non-empty
normalized name, as filter-then-map over the pairs `(p, k)`. -/
theorem matcher_inner_eq (p : PolyRec) (th : ℚ)
    (hp : ¬normalize_event_name p.event_name = "") (kals : List KalRec) :
    (kals.flatMap fun kal =>
      if normalize_event_name kal.event_name = "" then []
      else if th ≤ similarity (normalize_event_name p.event_name)
          (normalize_event_name kal.event_name) then [matcherMk (p, kal)]
      else []) =
    ((kals.map (Prod.mk p)).filter (matcherCond th)).map matcherMk := by
  induction kals with
  | nil => rfl
  | cons k ks ih =>
    by_cases hk : normalize_event_name k.event_name = "" <;>
      by_cases hth : th ≤ similarity (normalize_event_name p.event_name)
        (normalize_event_name k.event_name) <;>
      simp [matcherCond, hp, hk, hth, ih]

/-- **C4.** The matcher's output is exactly the cross product of the two
input lists filtered to the qualifying pairs (both normalized names
non-empty, similarity at or above the threshold) and mapped to `EventMatch`
records — all qualifying pairs are retained many-to-many with multiplicity
and in loop order, records with an empty normalized name are silently
skipped, and an `EventMatch` for a pair exists iff the pair qualifies. -/
theorem claim_C4_matcher_filtered_product (polys : List PolyRec)
    (kals : List KalRec) (th : ℚ) :
    find_matching_events polys kals th =
      ((polys.flatMap fun p => kals.map (Prod.mk p)).filter
        (matcherCond th)).map matcherMk ∧
    (∀ (p : PolyRec) (k : KalRec),
      (∃ m ∈ find_matching_events polys kals th,
        m.polymarket = p ∧ m.kalshi = k) ↔
      (p ∈ polys ∧ k ∈ kals ∧ ¬normalize_event_name p.event_name = "" ∧
        ¬normalize_event_name k.event_name = "" ∧
        th ≤ similarity (normalize_event_name p.event_name)
          (normalize_event_name k.event_name))) := by
  have heq : find_matching_events polys kals th =
      ((polys.flatMap fun p => kals.map (Prod.mk p)).filter
        (matcherCond th)).map matcherMk := by
    induction polys with
    | nil => rfl
    | cons p ps ih =>
      rw [find_matching_events_cons, ih, List.flatMap_cons, List.filter_append,
        List.map_append]
      congr 1
      by_cases hp : normalize_event_name p.event_name = ""
      · rw [if_pos hp]
        have hnil : (kals.map (Prod.mk p)).filter (matcherCond th) = [] := by
          refine List.filter_eq_nil_iff.mpr ?_
          rintro pk hpk
          rcases List.mem_map.mp hpk with ⟨k, _, rfl⟩
          simp [matcherCond, hp]
        rw [hnil]; rfl
      · rw [if_neg hp]
        exact matcher_inner_eq p th hp kals
  refine ⟨heq, fun p k => ?_⟩
  rw [heq]
  constructor
  · rintro ⟨m, hm, hp1, hk1⟩
    rcases List.mem_map.mp hm with ⟨pk, hpk, rfl⟩
    rcases List.mem_filter.mp hpk with ⟨hmem, hcond⟩
    rcases List.mem_flatMap.mp hmem with ⟨a, ha, hpk2⟩
    rcases List.mem_map.mp hpk2 with ⟨k0, hk0, rfl⟩
    obtain rfl : a = p := hp1
    obtain rfl : k0 = k := hk1
    simp only [matcherCond, Bool.and_eq_true, decide_eq_true_eq] at hcond
    exact ⟨ha, hk0, hcond.1.1, hcond.1.2, hcond.2⟩
  · rintro ⟨hp1, hk1, h2, h3, h4⟩
    refine ⟨matcherMk (p, k),
      List.mem_map_of_mem _ (List.mem_filter.mpr ⟨?_, ?_⟩), rfl, rfl⟩
    · exact List.mem_flatMap.mpr ⟨p, hp1, List.mem_map_of_mem _ hk1⟩
    · simp only [matcherCond, Bool.and_eq_true, decide_eq_true_eq]
      exact ⟨⟨h2, h3⟩, h4⟩

/-- Membership in an `insertAE` insertion. -/
theorem mem_insertAE (v : List ℚ) (x a : Nat) :
    ∀ l : List Nat, a ∈ insertAE v x l ↔ a = x ∨ a ∈ l
  | [] => by simp [insertAE]
  | y :: ys => by
    by_cases hc : v.getD x 0 < v.getD y 0
    · rw [insertAE, if_pos hc]
      simp [List.mem_cons]
    · rw [insertAE, if_neg hc]
      simp only [List.mem_cons, mem_insertAE v x a ys]
      tauto

/-- `insertAE` permutes the new index into the list. -/
theorem insertAE_perm (v : List ℚ) (x : Nat) :
    ∀ l : List Nat, (insertAE v x l).Perm (x :: l)
  | [] => by rw [insertAE]
  | y :: ys => by
    by_cases hc : v.getD x 0 < v.getD y 0
    · rw [insertAE, if_pos hc]
    · rw [insertAE, if_neg hc]
      exact ((insertAE_perm v x ys).cons y).trans (List.Perm.swap x y ys)

/-- `insertAE` keeps the prefix sorted (ascending in the argsort keys). -/
theorem insertAE_sorted (v : List ℚ) (x : Nat) :
    ∀ l : List Nat, l.Pairwise (fun a b => v.getD a 0 ≤ v.getD b 0) →
      (insertAE v x l).Pairwise (fun a b => v.getD a 0 ≤ v.getD b 0)
  | [], _ => by rw [insertAE]; exact List.pairwise_singleton _ _
  | y :: ys, h => by
    rcases List.pairwise_cons.mp h with ⟨hy, hys⟩
    by_cases hc : v.getD x 0 < v.getD y 0
    · rw [insertAE, if_pos hc]
      refine List.pairwise_cons.mpr ⟨?_, h⟩
      intro b hb
      rcases List.mem_cons.mp hb with rfl | hb
      · exact le_of_lt hc
      · exact (le_of_lt hc).trans (hy b hb)
    · rw [insertAE, if_neg hc]
      refine List.pairwise_cons.mpr ⟨?_, insertAE_sorted v x ys hys⟩
      intro b hb
      rcases (mem_insertAE v x b ys).mp hb with rfl | hb
      · exact le_of_not_lt hc
      · exact hy b hb

/-- On a sorted prefix, `insertAE` lands the new index after its whole key
class: filtering any key class commutes, with the new index last. -/
theorem filter_insertAE (v : List ℚ) (q : ℚ) (x : Nat) :
    ∀ l : List Nat, l.Pairwise (fun a b => v.getD a 0 ≤ v.getD b 0) →
      (insertAE v x l).filter (fun k => decide (v.getD k 0 = q)) =
        if v.getD x 0 = q then
          l.filter (fun k => decide (v.getD k 0 = q)) ++ [x]
        else l.filter (fun k => decide (v.getD k 0 = q))
  | [], _ => by
    rw [insertAE]
    by_cases hx : v.getD x 0 = q
    · rw [if_pos hx, List.filter_cons_of_pos (by simpa using hx), List.filter_nil,
        List.nil_append]
    · rw [if_neg hx, List.filter_cons_of_neg (by simpa using hx), List.filter_nil]
  | y :: ys, h => by
    rcases List.pairwise_cons.mp h with ⟨hy, hys⟩
    by_cases hc : v.getD x 0 < v.getD y 0
    · rw [insertAE, if_pos hc]
      by_cases hx : v.getD x 0 = q
      · have hnil : (y :: ys).filter (fun k => decide (v.getD k 0 = q)) = [] := by
          refine List.filter_eq_nil_iff.mpr ?_
          intro b hb
          have hlt : v.getD x 0 < v.getD b 0 := by
            rcases List.mem_cons.mp hb with rfl | hb
            · exact hc
            · exact hc.trans_le (hy b hb)
          simp only [decide_eq_true_eq]
          intro he
          rw [hx, he] at hlt
          exact lt_irrefl q hlt
        rw [if_pos hx, List.filter_cons_of_pos (by simpa using hx), hnil,
          List.nil_append]
      · rw [if_neg hx, List.filter_cons_of_neg (by simpa using hx)]
    · rw [insertAE, if_neg hc]
      by_cases hx : v.getD x 0 = q
      · rw [if_pos hx]
        by_cases hyq : v.getD y 0 = q
        · rw [List.filter_cons_of_pos (by simpa using hyq),
            List.filter_cons_of_pos (by simpa using hyq),
            filter_insertAE v q x ys hys, if_pos hx, List.cons_append]
        · rw [List.filter_cons_of_neg (by simpa using hyq),
            List.filter_cons_of_neg (by simpa using hyq),
            filter_insertAE v q x ys hys, if_pos hx]
      · rw [if_neg hx]
        by_cases hyq : v.getD y 0 = q
        · rw [List.filter_cons_of_pos (by simpa using hyq),
            List.filter_cons_of_pos (by simpa using hyq),
            filter_insertAE v q x ys hys, if_neg hx]
        · rw [List.filter_cons_of_neg (by simpa using hyq),
            List.filter_cons_of_neg (by simpa using hyq),
            filter_insertAE v q x ys hys, if_neg hx]

/-- The insertion-sort fold permutes the segment into the accumulator. -/
theorem insFold_perm (v : List ℚ) :
    ∀ (t acc : List Nat),
      (t.foldl (fun a x => insertAE v x a) acc).Perm (acc ++ t)
  | [], acc => by simp
  | x :: t, acc => by
    simp only [List.foldl_cons]
    refine (insFold_perm v t (insertAE v x acc)).trans ?_
    refine ((insertAE_perm v x acc).append_right t).trans ?_
    exact List.perm_middle.symm

/-- The insertion-sort fold keeps the accumulator sorted. -/
theorem insFold_sorted (v : List ℚ) :
    ∀ (t acc : List Nat), acc.Pairwise (fun a b => v.getD a 0 ≤ v.getD b 0) →
      (t.foldl (fun a x => insertAE v x a) acc).Pairwise
        (fun a b => v.getD a 0 ≤ v.getD b 0)
  | [], _, h => h
  | x :: t, acc, h => by
    simp only [List.foldl_cons]
    exact insFold_sorted v t _ (insertAE_sorted v x acc h)

/-- The insertion-sort fold appends each key class in segment order. -/
theorem insFold_filter (v : List ℚ) (q : ℚ) :
    ∀ (t acc : List Nat), acc.Pairwise (fun a b => v.getD a 0 ≤ v.getD b 0) →
      (t.foldl (fun a x => insertAE v x a) acc).filter
          (fun k => decide (v.getD k 0 = q)) =
        acc.filter (fun k => decide (v.getD k 0 = q)) ++
          t.filter (fun k => decide (v.getD k 0 = q))
  | [], acc, _ => by simp
  | x :: t, acc, h => by
    simp only [List.foldl_cons]
    rw [insFold_filter v q t _ (insertAE_sorted v x acc h),
      filter_insertAE v q x acc h]
    by_cases hx : v.getD x 0 = q
    · rw [if_pos hx, List.filter_cons_of_pos (by simpa using hx),
        List.append_assoc, List.singleton_append]
    · rw [if_neg hx, List.filter_cons_of_neg (by simpa using hx)]

/-- numpy's small-segment insertion sort permutes the segment. -/
theorem insertionArgsort_perm (v : List ℚ) (t : List Nat) :
    (insertionArgsort v t).Perm t := by
  simpa using insFold_perm v t []

/-- numpy's small-segment insertion sort sorts ascending by key. -/
theorem insertionArgsort_sorted (v : List ℚ) (t : List Nat) :
    (insertionArgsort v t).Pairwise (fun a b => v.getD a 0 ≤ v.getD b 0) :=
  insFold_sorted v t [] List.Pairwise.nil

/-- numpy's small-segment insertion sort is stable: each key class keeps
segment order. -/
theorem insertionArgsort_filter (v : List ℚ) (q : ℚ) (t : List Nat) :
    (insertionArgsort v t).filter (fun k => decide (v.getD k 0 = q)) =
      t.filter (fun k => decide (v.getD k 0 = q)) := by
  simpa using insFold_filter v q t [] List.Pairwise.nil

/-- With an empty stack and a segment of at most 16 entries, `aquicksort`
never partitions: it is exactly the insertion sort of the segment. -/
theorem aquicksort_small (v : List ℚ) (fuel : Nat) (t : List Nat) (d : Int)
    (pr : Nat) (h : pr ≤ 15) :
    aquicksort v (fuel + 1) t [] d 0 pr = insertionSegment v t 0 pr := by
  have h15 : ¬ 15 < pr - 0 := by omega
  rw [aquicksort, if_neg h15]

/-- On the whole index range the segment splice is no restriction at all. -/
theorem insertionSegment_full (v : List ℚ) (t : List Nat) :
    insertionSegment v t 0 (t.length - 1) = insertionArgsort v t := by
  cases t with
  | nil => rfl
  | cons x xs =>
    have e1 : (x :: xs).length - 1 + 1 - 0 = (x :: xs).length := by simp
    have e2 : (x :: xs).length - 1 + 1 = (x :: xs).length := by simp
    rw [insertionSegment, e1, e2, List.take_zero, List.drop_zero,
      List.take_length, List.drop_length, List.nil_append, List.append_nil]

/-- Within numpy's insertion-sort regime (at most 16 entries) the
`kind='quicksort'` argsort is the stable insertion argsort. -/
theorem npArgsort_small (v : List ℚ) (h : v.length ≤ 16) :
    npArgsort v = insertionArgsort v (List.range v.length) := by
  have e : 2 * v.length + 4 = 2 * v.length + 3 + 1 := rfl
  rw [npArgsort, e, aquicksort_small v _ _ _ _ (by omega)]
  have e2 := insertionSegment_full v (List.range v.length)
  rwa [List.length_range] at e2

/-- Positional take of the whole range is the list itself. -/
theorem map_getD_range (l : List Opp) :
    (List.range l.length).map (fun i => l.getD i padOpp) = l := by
  apply List.ext_getElem
  · simp
  · intro i h1 h2
    simp only [List.getElem_map, List.getElem_range]
    exact List.getD_eq_getElem l padOpp h2

/-- The reversed index array `np.arange(n)[::-1]` read at `k < n`. -/
theorem revIdx_getD (n k : Nat) (h : k < n) :
    ((List.range n).reverse).getD k 0 = n - 1 - k := by
  rw [List.getD_eq_getElem _ _ (by simpa using h), List.getElem_reverse]
  simp

/-- Mapping the reversed index array over the whole range reverses it. -/
theorem map_revIdx_range (n : Nat) :
    (List.range n).map (fun k => ((List.range n).reverse).getD k 0) =
      (List.range n).reverse := by
  apply List.ext_getElem
  · simp
  · intro i h1 h2
    simp only [List.getElem_map, List.getElem_range]
    exact List.getD_eq_getElem _ _ h2

/-- The reversed profit column read at `k < n` is the `profit_pct` of the
row at position `n - 1 - k`. -/
theorem pctRev_getD (rows : List Opp) (k : Nat) (h : k < rows.length) :
    ((rows.map Opp.profit_pct).reverse).getD k 0 =
      (rows.getD (rows.length - 1 - k) padOpp).profit_pct := by
  rw [List.getD_eq_getElem _ _ (by simpa using h), List.getElem_reverse]
  simp only [List.length_map, List.getElem_map]
  rw [List.getD_eq_getElem _ _ (by omega)]

/-- Key translation: the argsort key at position `k` is the `profit_pct` of
the row the composed indexer sends `k` to. -/
theorem c5key (rows : List Opp) (k : Nat) (h : k < rows.length) :
    (rows.getD (((List.range rows.length).reverse).getD k 0) padOpp).profit_pct =
      ((rows.map Opp.profit_pct).reverse).getD k 0 := by
  rw [revIdx_getD _ _ h, pctRev_getD _ _ h]

/-- The pandas composition (reverse values, argsort, map through the
reversed index array, reverse, positional take) turns the argsort
invariants into: permutation, descending `profit_pct`, and key classes kept
in source order. -/
theorem c5pipeline (rows : List Opp) (st : List Nat)
    (hperm : st.Perm (List.range rows.length))
    (hsorted : st.Pairwise (fun a b =>
      ((rows.map Opp.profit_pct).reverse).getD a 0 ≤
        ((rows.map Opp.profit_pct).reverse).getD b 0))
    (hfilter : ∀ q : ℚ,
      st.filter (fun k => decide (((rows.map Opp.profit_pct).reverse).getD k 0 = q)) =
        (List.range rows.length).filter
          (fun k => decide (((rows.map Opp.profit_pct).reverse).getD k 0 = q))) :
    (((st.map (fun k => ((List.range rows.length).reverse).getD k 0)).reverse).map
        (fun i => rows.getD i padOpp)).Perm rows ∧
    (((st.map (fun k => ((List.range rows.length).reverse).getD k 0)).reverse).map
        (fun i => rows.getD i padOpp)).Sorted
      (fun x y => y.profit_pct ≤ x.profit_pct) ∧
    (∀ q : ℚ,
      (((st.map (fun k => ((List.range rows.length).reverse).getD k 0)).reverse).map
          (fun i => rows.getD i padOpp)).filter
        (fun o => decide (o.profit_pct = q)) =
      rows.filter (fun o => decide (o.profit_pct = q))) := by
  have hmem : ∀ k ∈ st, k < rows.length := fun k hk =>
    List.mem_range.mp (hperm.subset hk)
  refine ⟨?_, ?_, ?_⟩
  · have hmapf : ((st.map (fun k => ((List.range rows.length).reverse).getD k 0)).reverse).Perm
        (List.range rows.length) := by
      refine (List.reverse_perm _).trans ?_
      refine (hperm.map _).trans ?_
      rw [map_revIdx_range]
      exact List.reverse_perm _
    have h1 := hmapf.map (fun i => rows.getD i padOpp)
    rwa [map_getD_range] at h1
  · have hst : st.Pairwise (fun a b =>
        (rows.getD (((List.range rows.length).reverse).getD a 0) padOpp).profit_pct ≤
          (rows.getD (((List.range rows.length).reverse).getD b 0) padOpp).profit_pct) := by
      refine List.Pairwise.imp_of_mem ?_ hsorted
      intro a b ha hb hab
      rw [c5key rows a (hmem a ha), c5key rows b (hmem b hb)]
      exact hab
    have hmapped : (st.map (fun k => ((List.range rows.length).reverse).getD k 0)).Pairwise
        (fun x y => (rows.getD x padOpp).profit_pct ≤ (rows.getD y padOpp).profit_pct) :=
      hst.map _ (fun a b hab => hab)
    have hrev : ((st.map (fun k => ((List.range rows.length).reverse).getD k 0)).reverse).Pairwise
        (fun x y => (rows.getD y padOpp).profit_pct ≤ (rows.getD x padOpp).profit_pct) :=
      List.pairwise_reverse.mpr hmapped
    exact hrev.map _ (fun a b hab => hab)
  · intro q
    rw [List.filter_map, List.filter_reverse, List.filter_map]
    have hc1 : st.filter
        (((fun o => decide (o.profit_pct = q)) ∘ (fun i => rows.getD i padOpp)) ∘
          (fun k => ((List.range rows.length).reverse).getD k 0)) =
        st.filter (fun k => decide (((rows.map Opp.profit_pct).reverse).getD k 0 = q)) := by
      refine List.filter_congr ?_
      intro k hk
      simp only [Function.comp_apply]
      rw [c5key rows k (hmem k hk)]
    have hc2 : (List.range rows.length).filter
        (fun k => decide (((rows.map Opp.profit_pct).reverse).getD k 0 = q)) =
        (List.range rows.length).filter
          (((fun o => decide (o.profit_pct = q)) ∘ (fun i => rows.getD i padOpp)) ∘
            (fun k => ((List.range rows.length).reverse).getD k 0)) := by
      refine (List.filter_congr ?_).symm
      intro k hk
      simp only [Function.comp_apply]
      rw [c5key rows k (List.mem_range.mp hk)]
    rw [hc1, hfilter q, hc2, ← List.filter_map, map_revIdx_range,
      List.filter_reverse, List.reverse_reverse, ← List.filter_map, map_getD_range]

/-- One row of the stability counterexample: `profit_pct` is `1` and
`theoretical_profit` records the source position. -/
def c5row (i : ℚ) : Opp :=
  { strategy := .polyYesKalNo, theoretical_cost := none, theoretical_return := none,
    theoretical_profit := i, profit_pct := 1, buy_price := none, sell_price := none }

/-- Seventeen tied rows: one more than numpy's insertion-sort cutoff, so the
introsort performs one partition step. -/
def c5rows : List Opp :=
  [c5row 0, c5row 1, c5row 2, c5row 3, c5row 4, c5row 5, c5row 6, c5row 7, c5row 8,
   c5row 9, c5row 10, c5row 11, c5row 12, c5row 13, c5row 14, c5row 15, c5row 16]

/-- **C5 (counterexample).** The claim's stability conjunct fails on the
code: seventeen rows with equal `profit_pct` (already sorted, so only
stability is at stake) come back reordered, because `sort_values` uses
numpy's `kind='quicksort'` argsort, whose partition step swaps tied entries
once the frame exceeds the 16-row insertion-sort regime. -/
theorem claim_C5_counterexample :
    c5rows.Sorted (fun x y => y.profit_pct ≤ x.profit_pct) ∧
    (sortValuesDescPct c5rows).filter (fun o => decide (o.profit_pct = 1)) ≠
      c5rows.filter (fun o => decide (o.profit_pct = 1)) := by
  constructor
  · decide
  · decide

/-- **C5 (amended).** For result sets within numpy's insertion-sort regime
(at most 16 rows) the ranker returns the same multiset of rows, sorted with
`profit_pct` non-increasing, and stably: every `profit_pct` class is
returned exactly as it occurs in the input.  Beyond 16 rows the sort is
still a descending permutation but ties may be reordered (see the
counterexample). -/
theorem claim_C5_amended_ranker_small (rows : List Opp)
    (h : rows.length ≤ 16) :
    (sortValuesDescPct rows).Perm rows ∧
    (sortValuesDescPct rows).Sorted (fun x y => y.profit_pct ≤ x.profit_pct) ∧
    (∀ q : ℚ, (sortValuesDescPct rows).filter (fun o => decide (o.profit_pct = q)) =
      rows.filter (fun o => decide (o.profit_pct = q))) := by
  have hlen : ((rows.map Opp.profit_pct).reverse).length = rows.length := by simp
  have hnp : npArgsort ((rows.map Opp.profit_pct).reverse) =
      insertionArgsort ((rows.map Opp.profit_pct).reverse)
        (List.range rows.length) := by
    have h16 : ((rows.map Opp.profit_pct).reverse).length ≤ 16 := by simpa using h
    rw [npArgsort_small _ h16, hlen]
  rw [sortValuesDescPct, hnp]
  refine c5pipeline rows _ ?_ ?_ ?_
  · exact insertionArgsort_perm _ _
  · exact insertionArgsort_sorted _ _
  · intro q
    exact insertionArgsort_filter _ q _

/-- Three rows with a tie, for the amended theorem's witness. -/
def c5wrows : List Opp :=
  [c5row 0, { c5row 1 with profit_pct := 2 }, c5row 2]

/-- **C5 witness.** -/
theorem claim_C5_amended_ranker_small_witness :
    c5wrows.length ≤ 16 ∧
    ((sortValuesDescPct c5wrows).Perm c5wrows ∧
     (sortValuesDescPct c5wrows).Sorted (fun x y => y.profit_pct ≤ x.profit_pct) ∧
     (∀ q : ℚ, (sortValuesDescPct c5wrows).filter (fun o => decide (o.profit_pct = q)) =
       c5wrows.filter (fun o => decide (o.profit_pct = q)))) :=
  ⟨by decide, claim_C5_amended_ranker_small c5wrows (by decide)⟩

/-- `Char.toNat` inverts `Char.ofNat` on small codepoints. -/
theorem charToNat_ofNat (n : Nat) (h : n < 55296) : (Char.ofNat n).toNat = n := by
  have hv : n.isValidChar := Or.inl h
  unfold Char.ofNat
  rw [dif_pos hv]
  rfl

/-- Lowercasing a character twice is the same as doing it once. -/
theorem pyLowerChar_idem (c : Char) : pyLowerChar (pyLowerChar c) = pyLowerChar c := by
  unfold pyLowerChar
  by_cases h : 65 ≤ c.toNat ∧ c.toNat ≤ 90
  · rw [if_pos h]
    have ht : (Char.ofNat (c.toNat + 32)).toNat = c.toNat + 32 :=
      charToNat_ofNat _ (by omega)
    rw [if_neg (by rw [ht]; omega)]
  · rw [if_neg h, if_neg h]

/-- Mapping a function that fixes every element of a list is the identity. -/
theorem map_eq_self_of_mem {α : Type} {f : α → α} :
    ∀ {l : List α}, (∀ x ∈ l, f x = x) → l.map f = l
  | [], _ => rfl
  | x :: l, h => by
    rw [List.map_cons, h x (List.mem_cons_self x l),
      map_eq_self_of_mem fun y hy => h y (List.mem_cons_of_mem x hy)]

/-- `pyStrip` returns a sublist of its input. -/
theorem pyStrip_sublist (l : List Char) : List.Sublist (pyStrip l) l := by
  unfold pyStrip
  have h1 : List.Sublist ((l.dropWhile Char.isWhitespace).reverse.dropWhile Char.isWhitespace)
      (l.dropWhile Char.isWhitespace).reverse := List.dropWhile_sublist _
  have h2 := h1.reverse
  rw [List.reverse_reverse] at h2
  exact h2.trans (List.dropWhile_sublist _)

/-- The four replace-deletions return a sublist of their input. -/
theorem pyReplaceDel_sublist (c : Char) (l : List Char) : List.Sublist (pyReplaceDel c l) l :=
  List.filter_sublist l

/-- The character list of a normalized name, as a function on lists. -/
def normList (l : List Char) : List Char :=
  pyReplaceDel ',' (pyReplaceDel '.' (pyReplaceDel '!' (pyReplaceDel '?'
    (pyStrip (pyLower l)))))

theorem normalize_event_name_eq (s : String) :
    normalize_event_name s = String.mk (normList s.data) := rfl

/-- Every character surviving normalization is already lowercase. -/
theorem normList_lower_fixed (l : List Char) :
    ∀ x ∈ normList l, pyLowerChar x = x := by
  intro x hx
  have hsub : List.Sublist (normList l) (pyLower l) :=
    ((((pyReplaceDel_sublist _ _).trans (pyReplaceDel_sublist _ _)).trans
      (pyReplaceDel_sublist _ _)).trans (pyReplaceDel_sublist _ _)).trans
      (pyStrip_sublist _)
  rcases List.mem_map.mp (hsub.subset hx) with ⟨y, _, rfl⟩
  exact pyLowerChar_idem y

/-- No character surviving normalization is one of the four deleted ones. -/
theorem normList_no_removed (l : List Char) :
    ∀ x ∈ normList l, x ≠ '?' ∧ x ≠ '!' ∧ x ≠ '.' ∧ x ≠ ',' := by
  intro x hx
  unfold normList pyReplaceDel at hx
  rcases List.mem_filter.mp hx with ⟨hx, hc4⟩
  rcases List.mem_filter.mp hx with ⟨hx, hc3⟩
  rcases List.mem_filter.mp hx with ⟨hx, hc2⟩
  rcases List.mem_filter.mp hx with ⟨_, hc1⟩
  exact ⟨by simpa using hc1, by simpa using hc2, by simpa using hc3,
    by simpa using hc4⟩

/-- A second normalization of an already-normalized list only strips. -/
theorem normList_normList (l : List Char) :
    normList (normList l) = pyStrip (normList l) := by
  have hlow : pyLower (normList l) = normList l :=
    map_eq_self_of_mem (normList_lower_fixed l)
  have hstrip : ∀ x ∈ pyStrip (normList l), x ≠ '?' ∧ x ≠ '!' ∧ x ≠ '.' ∧ x ≠ ',' :=
    fun x hx => normList_no_removed l x ((pyStrip_sublist _).subset hx)
  show pyReplaceDel ',' (pyReplaceDel '.' (pyReplaceDel '!' (pyReplaceDel '?'
    (pyStrip (pyLower (normList l)))))) = pyStrip (normList l)
  rw [hlow]
  have h1 : pyReplaceDel '?' (pyStrip (normList l)) = pyStrip (normList l) :=
    List.filter_eq_self.mpr fun x hx => by
      simpa using (hstrip x hx).1
  rw [h1]
  have h2 : pyReplaceDel '!' (pyStrip (normList l)) = pyStrip (normList l) :=
    List.filter_eq_self.mpr fun x hx => by
      simpa using (hstrip x hx).2.1
  rw [h2]
  have h3 : pyReplaceDel '.' (pyStrip (normList l)) = pyStrip (normList l) :=
    List.filter_eq_self.mpr fun x hx => by
      simpa using (hstrip x hx).2.2.1
  rw [h3]
  exact List.filter_eq_self.mpr fun x hx => by
    simpa using (hstrip x hx).2.2.2

/-- **C6 counterexample.** `normalize` is not idempotent: deleting a `?` can
expose trailing whitespace that the earlier `strip` no longer sees, so
`normalize("a ?") = "a "` while `normalize("a ") = "a"`. -/
theorem claim_C6_counterexample :
    normalize_event_name (normalize_event_name "a ?") ≠
      normalize_event_name "a ?" ∧
    normalize_event_name "a ?" = "a " ∧
    normalize_event_name (normalize_event_name "a ?") = "a" := by
  refine ⟨?_, ?_, ?_⟩ <;> decide

/-- **C6 (amended).** A second application of `normalize` coincides with
stripping the first result's boundary whitespace:
`normalize (normalize s) = strip (normalize s)` for every `s`.  In
particular `normalize` is idempotent exactly on those strings whose
normalized form carries no leading or trailing whitespace; full idempotence
fails (see the counterexample). -/
theorem claim_C6_amended_normalize_restrip (s : String) :
    normalize_event_name (normalize_event_name s) =
      String.mk (pyStrip (normalize_event_name s).data) := by
  rw [normalize_event_name_eq s, normalize_event_name_eq]
  show String.mk (normList (normList s.data)) = _
  rw [normList_normList]

namespace Difflib

/-- `b2j` of the empty string is empty for every character. -/
theorem b2j_nil (c : Char) : b2j [] c = [] := rfl

/-- With an empty `b2j` the DP rows leave the best block untouched. -/
theorem flmRows_nil_b :
    ∀ (a : List Char) (blo bhi : Nat) (rows : List Nat)
      (best : Nat × Nat × Nat) (j2len : Nat → Nat),
      flmRows a [] blo bhi rows best j2len = best
  | _, _, _, [], _, _ => rfl
  | a, blo, bhi, i :: rest, best, j2len => by
    rw [flmRows, b2j_nil, flmRow]
    exact flmRows_nil_b a blo bhi rest best (fun _ => 0)

/-- The backward extension never fires when the block's `b` edge sits on the
window's lower bound. -/
theorem extendBack_bj_at_blo (a b : List Char) (alo blo : Nat) :
    ∀ (fuel bi bs : Nat),
      extendBack a b alo blo fuel (bi, blo, bs) = (bi, blo, bs)
  | 0, _, _ => rfl
  | fuel + 1, bi, bs => by
    rw [extendBack, if_neg]
    rintro ⟨-, h, -⟩
    exact lt_irrefl blo h

/-- The forward extension never fires when the `b` window is empty. -/
theorem extendFwd_bhi_zero (a b : List Char) (ahi : Nat) :
    ∀ (fuel : Nat) (st : Nat × Nat × Nat),
      extendFwd a b ahi 0 fuel st = st
  | 0, _ => rfl
  | fuel + 1, (bi, bj, bs) => by
    rw [extendFwd, if_neg]
    rintro ⟨-, h, -⟩
    exact Nat.not_lt_zero _ h

/-- `find_longest_match` against the empty string returns the empty block. -/
theorem find_longest_match_nil_b (a : List Char) (alo ahi : Nat) :
    find_longest_match a [] alo ahi 0 0 = (alo, 0, 0) := by
  rw [find_longest_match, flmRows_nil_b, extendBack_bj_at_blo, extendFwd_bhi_zero]

/-- No matching blocks exist against the empty string. -/
theorem totalMatches_nil_b (a : List Char) : totalMatches a [] = 0 := by
  rw [totalMatches]
  simp only [List.length_nil]
  rw [blocksAux, find_longest_match_nil_b]
  simp

/-- `ratio` against the empty string is `0` for a non-empty `a`. -/
theorem ratio_nil_b (a : List Char) (ha : a ≠ []) : ratio a [] = 0 := by
  have hlen : a.length ≠ 0 := fun h => ha (List.length_eq_zero.mp h)
  rw [ratio, if_pos (by simpa using hlen), totalMatches_nil_b]
  simp

end Difflib

namespace Difflib

/-- For `a = b = l`: length of the popularity-respecting diagonal run ending
at position `j` (the value `j2len[j]` reaches at row `j` of the DP when both
sequences are `l`). -/
def dRun (l : List Char) : Nat → Nat
  | 0 => if isPopular l (l.getD 0 padChar) then 0 else 1
  | j + 1 => if isPopular l (l.getD (j + 1) padChar) then 0 else dRun l j + 1

theorem dRun_le (l : List Char) : ∀ j, dRun l j ≤ j + 1
  | 0 => by rw [dRun]; split <;> omega
  | j + 1 => by
    rw [dRun]
    split
    · omega
    · have := dRun_le l j
      omega

theorem dRun_pop (l : List Char) (j : Nat)
    (h : isPopular l (l.getD j padChar) = true) : dRun l j = 0 := by
  cases j with
  | zero => rw [dRun, if_pos h]
  | succ m => rw [dRun, if_pos h]

theorem dRun_nonpop (l : List Char) (j : Nat)
    (h : isPopular l (l.getD j padChar) = false) :
    dRun l j = (if j = 0 then 0 else dRun l (j - 1)) + 1 := by
  have h' : ¬(isPopular l (l.getD j padChar) = true) := by
    rw [h]; exact Bool.false_ne_true
  cases j with
  | zero => rw [dRun, if_neg h']; norm_num
  | succ m => rw [dRun, if_neg h']; simp

/-- Membership facts for `b2j`. -/
theorem mem_b2j (l : List Char) (c : Char) (j : Nat) (hj : j ∈ b2j l c) :
    j < l.length ∧ l.getD j padChar = c ∧ isPopular l c = false := by
  unfold b2j at hj
  by_cases hp : isPopular l c = true
  · rw [if_pos hp] at hj; cases hj
  · rw [if_neg hp] at hj
    unfold positions at hj
    rcases List.mem_filter.mp hj with ⟨hr, hc⟩
    exact ⟨List.mem_range.mp hr, by simpa using hc, by simpa using hp⟩

theorem mem_b2j_self (l : List Char) (i : Nat) (hi : i < l.length)
    (hpop : isPopular l (l.getD i padChar) = false) :
    i ∈ b2j l (l.getD i padChar) := by
  unfold b2j
  rw [if_neg (by rw [hpop]; exact Bool.false_ne_true)]
  unfold positions
  exact List.mem_filter.mpr ⟨List.mem_range.mpr hi, by simp⟩

theorem b2j_pairwise (l : List Char) (c : Char) :
    (b2j l c).Pairwise (· < ·) := by
  unfold b2j
  split
  · exact List.Pairwise.nil
  · exact (List.pairwise_lt_range l.length).sublist (List.filter_sublist _)

/-- The run length the inner loop computes at position `j`. -/
def rowK (j2len : Nat → Nat) (j : Nat) : Nat :=
  (if j = 0 then 0 else j2len (j - 1)) + 1

theorem flmRow_cons_skip (j2len : Nat → Nat) (blo bhi i j : Nat)
    (js : List Nat) (best : Nat × Nat × Nat) (new : Nat → Nat)
    (h1 : j < blo) :
    flmRow j2len blo bhi i (j :: js) best new =
      flmRow j2len blo bhi i js best new := by
  rw [flmRow, if_pos h1]

theorem flmRow_cons_break (j2len : Nat → Nat) (blo bhi i j : Nat)
    (js : List Nat) (best : Nat × Nat × Nat) (new : Nat → Nat)
    (h1 : ¬(j < blo)) (h2 : bhi ≤ j) :
    flmRow j2len blo bhi i (j :: js) best new = (best, new) := by
  rw [flmRow, if_neg h1, if_pos h2]

theorem flmRow_cons_main (j2len : Nat → Nat) (blo bhi i j : Nat)
    (js : List Nat) (best : Nat × Nat × Nat) (new : Nat → Nat)
    (h1 : ¬(j < blo)) (h2 : ¬(bhi ≤ j)) :
    flmRow j2len blo bhi i (j :: js) best new =
      flmRow j2len blo bhi i js
        (if best.2.2 < rowK j2len j then
          (i + 1 - rowK j2len j, j + 1 - rowK j2len j, rowK j2len j)
        else best)
        (Function.update new j (rowK j2len j)) := by
  rw [flmRow, if_neg h1, if_neg h2]
  rfl

/-- The inner DP loop splits along an append when no element triggers the
`continue`/`break` guards. -/
theorem flmRow_append (j2len : Nat → Nat) (blo bhi i : Nat) :
    ∀ (ps qs : List Nat) (best : Nat × Nat × Nat) (new : Nat → Nat),
      (∀ j ∈ ps, ¬(j < blo) ∧ ¬(bhi ≤ j)) →
      flmRow j2len blo bhi i (ps ++ qs) best new =
        flmRow j2len blo bhi i qs
          (flmRow j2len blo bhi i ps best new).1
          (flmRow j2len blo bhi i ps best new).2
  | [], _, _, _, _ => rfl
  | j :: ps, qs, best, new, hg => by
    have hj := hg j (List.mem_cons_self j ps)
    rw [List.cons_append, flmRow_cons_main j2len blo bhi i j _ _ _ hj.1 hj.2,
      flmRow_cons_main j2len blo bhi i j _ _ _ hj.1 hj.2]
    exact flmRow_append j2len blo bhi i ps qs _ _
      fun x hx => hg x (List.mem_cons_of_mem j hx)

/-- The inner DP loop leaves the best block alone when every candidate run
length is dominated by the current best. -/
theorem flmRow_fst_no_update (j2len : Nat → Nat) (blo bhi i : Nat) :
    ∀ (ps : List Nat) (best : Nat × Nat × Nat) (new : Nat → Nat),
      (∀ j ∈ ps, ¬(j < blo) ∧ ¬(bhi ≤ j)) →
      (∀ j ∈ ps, rowK j2len j ≤ best.2.2) →
      (flmRow j2len blo bhi i ps best new).1 = best
  | [], _, _, _, _ => rfl
  | j :: ps, best, new, hg, hk => by
    have hj := hg j (List.mem_cons_self j ps)
    have hkj := hk j (List.mem_cons_self j ps)
    rw [flmRow_cons_main j2len blo bhi i j _ _ _ hj.1 hj.2,
      if_neg (by omega)]
    exact flmRow_fst_no_update j2len blo bhi i ps best _
      (fun x hx => hg x (List.mem_cons_of_mem j hx))
      (fun x hx => hk x (List.mem_cons_of_mem j hx))

/-- Positions the inner loop never visited keep their incoming value. -/
theorem flmRow_snd_notmem (j2len : Nat → Nat) (blo bhi i : Nat) :
    ∀ (ps : List Nat) (best : Nat × Nat × Nat) (new : Nat → Nat) (j : Nat),
      j ∉ ps →
      (flmRow j2len blo bhi i ps best new).2 j = new j
  | [], _, _, _, _ => rfl
  | x :: ps, best, new, j, hj => by
    have hjx : j ≠ x := fun h => hj (h ▸ List.mem_cons_self x ps)
    have hjp : j ∉ ps := fun h => hj (List.mem_cons_of_mem x h)
    by_cases h1 : x < blo
    · rw [flmRow_cons_skip j2len blo bhi i x _ _ _ h1]
      exact flmRow_snd_notmem j2len blo bhi i ps best new j hjp
    · by_cases h2 : bhi ≤ x
      · rw [flmRow_cons_break j2len blo bhi i x _ _ _ h1 h2]
      · rw [flmRow_cons_main j2len blo bhi i x _ _ _ h1 h2,
          flmRow_snd_notmem j2len blo bhi i ps _ _ j hjp]
        simp [Function.update_apply, hjx]

/-- Positions the inner loop wrote carry the run length read from the
previous row; the written value depends only on the position, so later
duplicates rewrite the same number. -/
theorem flmRow_snd_mem (j2len : Nat → Nat) (blo bhi i : Nat) :
    ∀ (ps : List Nat) (best : Nat × Nat × Nat) (new : Nat → Nat) (j : Nat),
      j ∈ ps →
      (∀ x ∈ ps, ¬(x < blo) ∧ ¬(bhi ≤ x)) →
      (flmRow j2len blo bhi i ps best new).2 j = rowK j2len j
  | [], _, _, j, hj, _ => absurd hj (List.not_mem_nil j)
  | x :: ps, best, new, j, hj, hg => by
    have hx := hg x (List.mem_cons_self x ps)
    rw [flmRow_cons_main j2len blo bhi i x _ _ _ hx.1 hx.2]
    by_cases hmem : j ∈ ps
    · exact flmRow_snd_mem j2len blo bhi i ps _ _ j hmem
        fun y hy => hg y (List.mem_cons_of_mem x hy)
    · have hxj : j = x := by
        rcases List.mem_cons.mp hj with h | h
        · exact h
        · exact absurd h hmem
      subst hxj
      rw [flmRow_snd_notmem j2len blo bhi i ps _ _ j hmem]
      simp

end Difflib

namespace Difflib

/-- One DP row of `find_longest_match` on `a = b = l` over the full window:
if the incoming best block is diagonal, dominates every earlier diagonal run
and the incoming `j2len` is bounded by the diagonal runs, then the row can
only move the best block to a longer diagonal run, and the outgoing `j2len`
is the row-`i` run profile. -/
theorem row_step (l : List Char) (i : Nat) (hi : i < l.length)
    (hpop : isPopular l (l.getD i padChar) = false)
    (prev : Nat → Nat) (best : Nat × Nat × Nat)
    (hdiag : best.1 = best.2.1)
    (hsum : best.1 + best.2.2 ≤ l.length)
    (hdom : ∀ j, j < i → dRun l j ≤ best.2.2)
    (h4 : ∀ j, prev j ≤ dRun l j)
    (h5 : ∀ j, prev j + 1 ≤ dRun l i)
    (h6 : rowK prev i = dRun l i) :
    ((flmRow prev 0 l.length i (b2j l (l.getD i padChar)) best (fun _ => 0)).1.1 =
        (flmRow prev 0 l.length i (b2j l (l.getD i padChar)) best (fun _ => 0)).1.2.1 ∧
      (flmRow prev 0 l.length i (b2j l (l.getD i padChar)) best (fun _ => 0)).1.1 +
        (flmRow prev 0 l.length i (b2j l (l.getD i padChar)) best (fun _ => 0)).1.2.2 ≤
          l.length ∧
      (∀ j, j < i + 1 → dRun l j ≤
        (flmRow prev 0 l.length i (b2j l (l.getD i padChar)) best (fun _ => 0)).1.2.2)) ∧
    (∀ j, (flmRow prev 0 l.length i (b2j l (l.getD i padChar)) best (fun _ => 0)).2 j ≤
      dRun l j) ∧
    (∀ j, (flmRow prev 0 l.length i (b2j l (l.getD i padChar)) best (fun _ => 0)).2 j ≤
      dRun l i) ∧
    (flmRow prev 0 l.length i (b2j l (l.getD i padChar)) best (fun _ => 0)).2 i =
      dRun l i := by
  have hel : ∀ j ∈ b2j l (l.getD i padChar),
      j < l.length ∧ l.getD j padChar = l.getD i padChar :=
    fun j hj => ⟨(mem_b2j l _ j hj).1, (mem_b2j l _ j hj).2.1⟩
  have hg : ∀ j ∈ b2j l (l.getD i padChar), ¬(j < 0) ∧ ¬(l.length ≤ j) :=
    fun j hj => ⟨Nat.not_lt_zero j, not_le.mpr (hel j hj).1⟩
  have hdstep : ∀ j ∈ b2j l (l.getD i padChar),
      dRun l j = (if j = 0 then 0 else dRun l (j - 1)) + 1 := fun j hj =>
    dRun_nonpop l j (by rw [(hel j hj).2]; exact hpop)
  have hDi := dRun_nonpop l i hpop
  have hkd : ∀ j ∈ b2j l (l.getD i padChar), rowK prev j ≤ dRun l j := by
    intro j hj
    rw [hdstep j hj, rowK]
    by_cases h0 : j = 0
    · simp [h0]
    · rw [if_neg h0, if_neg h0]
      exact Nat.succ_le_succ (h4 (j - 1))
  have hki : ∀ j, rowK prev j ≤ dRun l i := by
    intro j
    rw [rowK]
    by_cases h0 : j = 0
    · rw [if_pos h0]; omega
    · rw [if_neg h0]; exact h5 (j - 1)
  -- the characterization of the row's outgoing j2len
  have hsnd : ∀ j, (flmRow prev 0 l.length i (b2j l (l.getD i padChar)) best
      (fun _ => 0)).2 j = if j ∈ b2j l (l.getD i padChar) then rowK prev j else 0 := by
    intro j
    by_cases hj : j ∈ b2j l (l.getD i padChar)
    · rw [if_pos hj]
      exact flmRow_snd_mem prev 0 l.length i _ best (fun _ => 0) j hj hg
    · rw [if_neg hj]
      exact flmRow_snd_notmem prev 0 l.length i _ best (fun _ => 0) j hj
  -- split the position list at the diagonal index
  obtain ⟨ps₁, ps₂, hsplit⟩ := List.append_of_mem (mem_b2j_self l i hi hpop)
  have hpw := b2j_pairwise l (l.getD i padChar)
  rw [hsplit] at hpw
  rcases List.pairwise_append.mp hpw with ⟨-, hpw2, hcross⟩
  have hlt1 : ∀ j ∈ ps₁, j < i := fun j hj =>
    hcross j hj i (List.mem_cons_self _ _)
  have hgt2 : ∀ j ∈ ps₂, i < j := (List.pairwise_cons.mp hpw2).1
  have hsub1 : ∀ j ∈ ps₁, j ∈ b2j l (l.getD i padChar) := fun j hj =>
    hsplit ▸ List.mem_append_left _ hj
  have hg1 : ∀ j ∈ ps₁, ¬(j < 0) ∧ ¬(l.length ≤ j) := fun j hj => hg j (hsub1 j hj)
  have hgi : ¬(i < 0) ∧ ¬(l.length ≤ i) := ⟨Nat.not_lt_zero i, not_le.mpr hi⟩
  -- phase 1: positions left of the diagonal never beat the current best
  have hfst1 : (flmRow prev 0 l.length i ps₁ best (fun _ => 0)).1 = best :=
    flmRow_fst_no_update prev 0 l.length i ps₁ best (fun _ => 0) hg1
      (fun j hj => le_trans (hkd j (hsub1 j hj)) (hdom j (hlt1 j hj)))
  -- unfold the whole row along the split
  have hrow : (flmRow prev 0 l.length i (b2j l (l.getD i padChar)) best
        (fun _ => 0)).1 =
      (flmRow prev 0 l.length i ps₂
        (if best.2.2 < rowK prev i then
          (i + 1 - rowK prev i, i + 1 - rowK prev i, rowK prev i)
        else best)
        (Function.update (flmRow prev 0 l.length i ps₁ best (fun _ => 0)).2 i
          (rowK prev i))).1 := by
    rw [hsplit, flmRow_append prev 0 l.length i ps₁ _ best (fun _ => 0) hg1, hfst1,
      flmRow_cons_main prev 0 l.length i i ps₂ _ _ hgi.1 hgi.2]
  -- phase 3: positions right of the diagonal never beat the updated best
  have hbig : dRun l i ≤ (if best.2.2 < rowK prev i then
      (i + 1 - rowK prev i, i + 1 - rowK prev i, rowK prev i) else best).2.2 := by
    by_cases hcmp : best.2.2 < rowK prev i
    · rw [if_pos hcmp]
      show dRun l i ≤ rowK prev i
      rw [h6]
    · rw [if_neg hcmp]
      show dRun l i ≤ best.2.2
      rw [← h6]
      omega
  have hfst3 : (flmRow prev 0 l.length i (b2j l (l.getD i padChar)) best
        (fun _ => 0)).1 =
      (if best.2.2 < rowK prev i then
        (i + 1 - rowK prev i, i + 1 - rowK prev i, rowK prev i)
      else best) := by
    rw [hrow]
    refine flmRow_fst_no_update prev 0 l.length i ps₂ _ _
      (fun j hj => hg j (hsplit ▸ List.mem_append_right _
        (List.mem_cons_of_mem _ hj)))
      (fun j hj => le_trans (hki j) hbig)
  constructor
  · rw [hfst3]
    by_cases hcmp : best.2.2 < rowK prev i
    · rw [if_pos hcmp]
      have hkle : rowK prev i ≤ i + 1 := by
        rw [h6]; exact dRun_le l i
      refine ⟨rfl, ?_, fun j hj => ?_⟩
      · show i + 1 - rowK prev i + rowK prev i ≤ l.length
        omega
      · show dRun l j ≤ rowK prev i
        rcases Nat.lt_succ_iff_lt_or_eq.mp hj with h | h
        · have := hdom j h
          omega
        · subst h
          rw [h6]
    · rw [if_neg hcmp]
      refine ⟨hdiag, hsum, fun j hj => ?_⟩
      rcases Nat.lt_succ_iff_lt_or_eq.mp hj with h | h
      · exact hdom j h
      · subst h
        rw [← h6]
        omega
  · refine ⟨fun j => ?_, fun j => ?_, ?_⟩
    · rw [hsnd j]
      by_cases hj : j ∈ b2j l (l.getD i padChar)
      · rw [if_pos hj]; exact hkd j hj
      · rw [if_neg hj]; exact Nat.zero_le _
    · rw [hsnd j]
      by_cases hj : j ∈ b2j l (l.getD i padChar)
      · rw [if_pos hj]; exact hki j
      · rw [if_neg hj]; exact Nat.zero_le _
    · rw [hsnd i, if_pos (mem_b2j_self l i hi hpop), h6]

end Difflib

namespace Difflib

/-- The DP of `find_longest_match` on `a = b = l` keeps the best block on the
diagonal and inside the sequence. -/
theorem flmRows_self (l : List Char) :
    ∀ (cnt i : Nat) (best : Nat × Nat × Nat) (j2len : Nat → Nat),
      i + cnt = l.length →
      best.1 = best.2.1 →
      best.1 + best.2.2 ≤ l.length →
      (∀ j, j < i → dRun l j ≤ best.2.2) →
      (∀ j, j2len j ≤ dRun l j) →
      (∀ j, j2len j ≤ (if i = 0 then 0 else dRun l (i - 1))) →
      (i ≠ 0 → j2len (i - 1) = dRun l (i - 1)) →
      (flmRows l l 0 l.length (List.range' i cnt) best j2len).1 =
        (flmRows l l 0 l.length (List.range' i cnt) best j2len).2.1 ∧
      (flmRows l l 0 l.length (List.range' i cnt) best j2len).1 +
        (flmRows l l 0 l.length (List.range' i cnt) best j2len).2.2 ≤ l.length
  | 0, i, best, j2len, hcnt, hdiag, hsum, _, _, _, _ => ⟨hdiag, hsum⟩
  | cnt + 1, i, best, j2len, hcnt, hdiag, hsum, hdom, h4, hrb, hex => by
    have hi : i < l.length := by omega
    rw [List.range'_succ, flmRows]
    by_cases hpop : isPopular l (l.getD i padChar) = true
    · -- popular row: the position list is empty and the row is a no-op
      have hb2j : b2j l (l.getD i padChar) = [] := by
        unfold b2j
        rw [if_pos hpop]
      rw [hb2j, flmRow]
      have hDi : dRun l i = 0 := dRun_pop l i hpop
      refine flmRows_self l cnt (i + 1) best (fun _ => 0) (by omega) hdiag hsum
        ?_ (fun j => Nat.zero_le _) ?_ ?_
      · intro j hj
        rcases Nat.lt_succ_iff_lt_or_eq.mp hj with h | h
        · exact hdom j h
        · subst h
          rw [hDi]
          exact Nat.zero_le _
      · intro j
        exact Nat.zero_le _
      · intro _
        simp [hDi]
    · -- non-popular row: apply the diagonal row lemma
      have hpop' : isPopular l (l.getD i padChar) = false := by
        simpa using hpop
      have hDi := dRun_nonpop l i hpop'
      have h5 : ∀ j, j2len j + 1 ≤ dRun l i := fun j => by
        have h1 := hrb j
        omega
      have h6 : rowK j2len i = dRun l i := by
        rw [rowK, hDi]
        by_cases h0 : i = 0
        · rw [if_pos h0, if_pos h0]
        · rw [if_neg h0, if_neg h0, hex h0]
      obtain ⟨⟨hdiag', hsum', hdom'⟩, h4', hrb', hex'⟩ :=
        row_step l i hi hpop' j2len best hdiag hsum hdom h4 h5 h6
      refine flmRows_self l cnt (i + 1) _ _ (by omega) hdiag' hsum' hdom' h4'
        ?_ ?_
      · intro j
        have := hrb' j
        simpa using this
      · intro _
        simpa using hex'

end Difflib

namespace Difflib

/-- On `a = b = l` the backward extension walks a diagonal block to the
window start. -/
theorem extendBack_diag_self (l : List Char) :
    ∀ (bi bs : Nat), extendBack l l 0 0 bi (bi, bi, bs) = (0, 0, bs + bi)
  | 0, bs => rfl
  | bi + 1, bs => by
    rw [extendBack, if_pos ⟨Nat.succ_pos bi, Nat.succ_pos bi, rfl⟩]
    simp only [Nat.add_sub_cancel]
    rw [extendBack_diag_self l bi (bs + 1)]
    have h : bs + 1 + bi = bs + (bi + 1) := by omega
    rw [h]

/-- On `a = b = l` the forward extension walks a diagonal block to the
window end. -/
theorem extendFwd_diag_self (l : List Char) (n : Nat) :
    ∀ (fuel bs : Nat), bs ≤ n → n ≤ bs + fuel →
      extendFwd l l n n fuel (0, 0, bs) = (0, 0, n)
  | 0, bs, hle, hge => by
    obtain rfl : bs = n := by omega
    rfl
  | fuel + 1, bs, hle, hge => by
    by_cases hbs : bs < n
    · rw [extendFwd, if_pos ⟨by omega, by omega, rfl⟩]
      exact extendFwd_diag_self l n fuel (bs + 1) (by omega) (by omega)
    · obtain rfl : bs = n := by omega
      rw [extendFwd, if_neg]
      rintro ⟨h, -, -⟩
      omega

/-- Assembling the two extension loops around any diagonal in-range block
yields the full diagonal block. -/
theorem flm_assemble (l : List Char) (F : Nat × Nat × Nat)
    (hdiag : F.1 = F.2.1) (hsum : F.1 + F.2.2 ≤ l.length) :
    extendFwd l l l.length l.length l.length
      (extendBack l l 0 0 F.1 F) = (0, 0, l.length) := by
  obtain ⟨b1, b2, bs⟩ := F
  obtain rfl : b1 = b2 := hdiag
  have hsum' : b1 + bs ≤ l.length := hsum
  rw [extendBack_diag_self l b1 bs,
    extendFwd_diag_self l l.length l.length (bs + b1) (by omega) (by omega)]

/-- `find_longest_match` on two copies of the same list returns the full
diagonal block. -/
theorem find_longest_match_self (l : List Char) :
    find_longest_match l l 0 l.length 0 l.length = (0, 0, l.length) := by
  rw [find_longest_match]
  simp only [Nat.sub_zero]
  obtain ⟨hdiag, hsum⟩ := flmRows_self l l.length 0 (0, 0, 0) (fun _ => 0)
    (by omega) rfl (by simp) (fun j hj => absurd hj (Nat.not_lt_zero j))
    (fun j => Nat.zero_le _) (fun j => Nat.le_refl 0) (fun h => absurd rfl h)
  exact flm_assemble l _ hdiag hsum

/-- The matching blocks of a string against itself total its length. -/
theorem totalMatches_self (l : List Char) (hl : l ≠ []) :
    totalMatches l l = l.length := by
  have hn : l.length ≠ 0 := fun h => hl (List.length_eq_zero.mp h)
  rw [totalMatches, blocksAux, find_longest_match_self]
  simp only
  rw [if_neg hn, if_neg (by omega : ¬(0 < 0 ∧ 0 < 0)),
    if_neg (by omega : ¬(0 + l.length < l.length ∧ 0 + l.length < l.length))]
  simp

/-- `ratio` of any non-empty string with itself is `1`. -/
theorem ratio_self (l : List Char) (hl : l ≠ []) : ratio l l = 1 := by
  have hn : l.length ≠ 0 := fun h => hl (List.length_eq_zero.mp h)
  rw [ratio, if_pos (by omega), totalMatches_self l hl]
  have : ((l.length : ℚ)) ≠ 0 := by exact_mod_cast hn
  field_simp
  ring

end Difflib

/-- **C7 counterexample.** `similarity` is not symmetric: the greedy
longest-block recursion of `SequenceMatcher` resolves ties by earliest
position in its first argument, and the two orders of this concrete pair
yield different totals (`4/17` against `8/17`). -/
theorem claim_C7_counterexample :
    similarity "pqXYZrsWtu" "rsAtupq" ≠ similarity "rsAtupq" "pqXYZrsWtu" ∧
    similarity "pqXYZrsWtu" "rsAtupq" = 4 / 17 ∧
    similarity "rsAtupq" "pqXYZrsWtu" = 8 / 17 := by
  have h1 : Difflib.totalMatches "pqXYZrsWtu".data "rsAtupq".data = 2 := rfl
  have h2 : Difflib.totalMatches "rsAtupq".data "pqXYZrsWtu".data = 4 := rfl
  have hl1 : "pqXYZrsWtu".data.length = 10 := rfl
  have hl2 : "rsAtupq".data.length = 7 := rfl
  have e1 : similarity "pqXYZrsWtu" "rsAtupq" = 4 / 17 := by
    rw [similarity, Difflib.ratio, h1, hl1, hl2]
    norm_num
  have e2 : similarity "rsAtupq" "pqXYZrsWtu" = 8 / 17 := by
    rw [similarity, Difflib.ratio, h2, hl1, hl2]
    norm_num
  refine ⟨?_, e1, e2⟩
  rw [e1, e2]
  norm_num


namespace Difflib

/-- Soundness of a matching block inside a window: in range on both sides
and equal content. -/
def BlockOK (a b : List Char) (alo ahi blo bhi : Nat) (m : Nat × Nat × Nat) : Prop :=
  alo ≤ m.1 ∧ blo ≤ m.2.1 ∧ m.1 + m.2.2 ≤ ahi ∧ m.2.1 + m.2.2 ≤ bhi ∧
  ∀ t, t < m.2.2 → a.getD (m.1 + t) padChar = b.getD (m.2.1 + t) padChar

/-- Soundness of a `j2len` dict at row `r`: every non-zero entry is a genuine
common run ending at `(r, j)` that stays inside the window. -/
def JOK (a b : List Char) (alo blo bhi r : Nat) (f : Nat → Nat) : Prop :=
  ∀ j, f j ≠ 0 → f j ≤ r + 1 - alo ∧ f j ≤ j + 1 - blo ∧ j < bhi ∧
    ∀ t, t < f j → a.getD (r - t) padChar = b.getD (j - t) padChar

theorem jok_zero (a b : List Char) (alo blo bhi r : Nat) :
    JOK a b alo blo bhi r (fun _ => 0) := fun _ h => absurd rfl h

/-- One inner-loop traversal preserves block soundness and produces a sound
row dict. -/
theorem flmRow_sound (a b : List Char) (alo ahi blo bhi i : Nat)
    (hialo : alo ≤ i) (hiahi : i < ahi) (prev : Nat → Nat)
    (hprev : JOK a b alo blo bhi (i - 1) prev)
    (hfirst : i = 0 → ∀ x, prev x = 0) :
    ∀ (ps : List Nat) (best : Nat × Nat × Nat) (new : Nat → Nat),
      (∀ j ∈ ps, b.getD j padChar = a.getD i padChar) →
      BlockOK a b alo ahi blo bhi best →
      JOK a b alo blo bhi i new →
      BlockOK a b alo ahi blo bhi
        (flmRow prev blo bhi i ps best new).1 ∧
      JOK a b alo blo bhi i (flmRow prev blo bhi i ps best new).2
  | [], best, new, _, hbest, hnew => ⟨hbest, hnew⟩
  | j :: ps, best, new, hchar, hbest, hnew => by
    by_cases h1 : j < blo
    · rw [flmRow_cons_skip prev blo bhi i j _ _ _ h1]
      exact flmRow_sound a b alo ahi blo bhi i hialo hiahi prev hprev hfirst
        ps best new (fun x hx => hchar x (List.mem_cons_of_mem j hx)) hbest hnew
    · by_cases h2 : bhi ≤ j
      · rw [flmRow_cons_break prev blo bhi i j _ _ _ h1 h2]
        exact ⟨hbest, hnew⟩
      · rw [flmRow_cons_main prev blo bhi i j _ _ _ h1 h2]
        -- the candidate run of length `rowK prev j` ending at `(i, j)` is sound
        have hc := hchar j (List.mem_cons_self j ps)
        have hrun : rowK prev j ≤ i + 1 - alo ∧ rowK prev j ≤ j + 1 - blo ∧
            ∀ t, t < rowK prev j →
              a.getD (i - t) padChar = b.getD (j - t) padChar := by
          by_cases h0 : j = 0
          · subst h0
            have hk : rowK prev 0 = 1 := rfl
            rw [hk]
            refine ⟨by omega, by omega, ?_⟩
            intro t ht
            obtain rfl : t = 0 := by omega
            simpa using hc.symm
          · by_cases hz : prev (j - 1) = 0
            · have hk : rowK prev j = 1 := by rw [rowK, if_neg h0, hz]
              rw [hk]
              refine ⟨by omega, by omega, ?_⟩
              intro t ht
              obtain rfl : t = 0 := by omega
              simpa using hc.symm
            · rcases Nat.eq_zero_or_pos i with hi0 | hi0
              · exact absurd (hfirst hi0 (j - 1)) hz
              obtain ⟨hb1, hb2, -, hcont⟩ := hprev (j - 1) hz
              have hk : rowK prev j = prev (j - 1) + 1 := by rw [rowK, if_neg h0]
              rw [hk]
              refine ⟨by omega, by omega, ?_⟩
              intro t ht
              rcases Nat.eq_zero_or_pos t with h | h
              · subst h
                simpa using hc.symm
              · have heq := hcont (t - 1) (by omega)
                have e1 : i - 1 - (t - 1) = i - t := by omega
                have e2 : j - 1 - (t - 1) = j - t := by omega
                rw [e1, e2] at heq
                exact heq
        refine flmRow_sound a b alo ahi blo bhi i hialo hiahi prev hprev hfirst
          ps _ _ (fun x hx => hchar x (List.mem_cons_of_mem j hx)) ?_ ?_
        · -- updated best block is sound
          by_cases hcmp : best.2.2 < rowK prev j
          · rw [if_pos hcmp]
            have hk1 : 1 ≤ rowK prev j := by rw [rowK]; omega
            refine ⟨?_, ?_, ?_, ?_, ?_⟩
            · show alo ≤ i + 1 - rowK prev j
              omega
            · show blo ≤ j + 1 - rowK prev j
              omega
            · show i + 1 - rowK prev j + rowK prev j ≤ ahi
              omega
            · show j + 1 - rowK prev j + rowK prev j ≤ bhi
              omega
            intro t ht
            have ht' : t < rowK prev j := ht
            have heq := hrun.2.2 (rowK prev j - 1 - t) (by omega)
            have e1 : i - (rowK prev j - 1 - t) = i + 1 - rowK prev j + t := by
              omega
            have e2 : j - (rowK prev j - 1 - t) = j + 1 - rowK prev j + t := by
              omega
            rw [e1, e2] at heq
            exact heq
          · rw [if_neg hcmp]
            exact hbest
        · -- updated row dict is sound
          intro x hx
          by_cases hxj : x = j
          · subst hxj
            rw [Function.update_same] at hx ⊢
            exact ⟨hrun.1, hrun.2.1, by omega, hrun.2.2⟩
          · rw [Function.update_noteq hxj] at hx ⊢
            exact hnew x hx

end Difflib

namespace Difflib

/-- The whole DP phase of `find_longest_match` returns a sound block. -/
theorem flmRows_sound (a b : List Char) (alo ahi blo bhi : Nat) :
    ∀ (cnt i : Nat) (best : Nat × Nat × Nat) (j2len : Nat → Nat),
      alo ≤ i → i + cnt = ahi →
      BlockOK a b alo ahi blo bhi best →
      JOK a b alo blo bhi (i - 1) j2len →
      (i = 0 → ∀ x, j2len x = 0) →
      BlockOK a b alo ahi blo bhi
        (flmRows a b blo bhi (List.range' i cnt) best j2len)
  | 0, i, best, j2len, _, _, hbest, _, _ => hbest
  | cnt + 1, i, best, j2len, hialo, hcnt, hbest, hj, hfirst => by
    rw [List.range'_succ, flmRows]
    have hi : i < ahi := by omega
    have hchar : ∀ j ∈ b2j b (a.getD i padChar),
        b.getD j padChar = a.getD i padChar :=
      fun j hj => (mem_b2j b _ j hj).2.1
    obtain ⟨hbest', hnew'⟩ := flmRow_sound a b alo ahi blo bhi i hialo hi j2len
      hj hfirst (b2j b (a.getD i padChar)) best (fun _ => 0) hchar hbest
      (jok_zero a b alo blo bhi i)
    exact flmRows_sound a b alo ahi blo bhi cnt (i + 1) _ _ (by omega) (by omega)
      hbest' hnew' (fun h => (Nat.succ_ne_zero i h).elim)

/-- The backward extension preserves block soundness. -/
theorem extendBack_sound (a b : List Char) (alo ahi blo bhi : Nat) :
    ∀ (fuel : Nat) (st : Nat × Nat × Nat),
      BlockOK a b alo ahi blo bhi st →
      BlockOK a b alo ahi blo bhi (extendBack a b alo blo fuel st)
  | 0, _, h => h
  | fuel + 1, (bi, bj, bs), h => by
    have H : alo ≤ bi ∧ blo ≤ bj ∧ bi + bs ≤ ahi ∧ bj + bs ≤ bhi ∧
        ∀ t, t < bs → a.getD (bi + t) padChar = b.getD (bj + t) padChar := h
    rw [extendBack]
    split
    case isTrue hc =>
      refine extendBack_sound a b alo ahi blo bhi fuel _ ?_
      refine ⟨?_, ?_, ?_, ?_, ?_⟩
      · show alo ≤ bi - 1
        omega
      · show blo ≤ bj - 1
        omega
      · show bi - 1 + (bs + 1) ≤ ahi
        omega
      · show bj - 1 + (bs + 1) ≤ bhi
        omega
      · intro t ht
        have ht' : t < bs + 1 := ht
        show a.getD (bi - 1 + t) padChar = b.getD (bj - 1 + t) padChar
        rcases Nat.eq_zero_or_pos t with h0 | h0
        · subst h0
          have e1 : bi - 1 + 0 = bi - 1 := rfl
          have e2 : bj - 1 + 0 = bj - 1 := rfl
          rw [e1, e2]
          exact hc.2.2
        · have heq := H.2.2.2.2 (t - 1) (by omega)
          have e1 : bi - 1 + t = bi + (t - 1) := by omega
          have e2 : bj - 1 + t = bj + (t - 1) := by omega
          rw [e1, e2]
          exact heq
    case isFalse => exact h

/-- The forward extension preserves block soundness. -/
theorem extendFwd_sound (a b : List Char) (alo ahi blo bhi : Nat) :
    ∀ (fuel : Nat) (st : Nat × Nat × Nat),
      BlockOK a b alo ahi blo bhi st →
      BlockOK a b alo ahi blo bhi (extendFwd a b ahi bhi fuel st)
  | 0, _, h => h
  | fuel + 1, (bi, bj, bs), h => by
    have H : alo ≤ bi ∧ blo ≤ bj ∧ bi + bs ≤ ahi ∧ bj + bs ≤ bhi ∧
        ∀ t, t < bs → a.getD (bi + t) padChar = b.getD (bj + t) padChar := h
    rw [extendFwd]
    split
    case isTrue hc =>
      refine extendFwd_sound a b alo ahi blo bhi fuel _ ?_
      refine ⟨H.1, H.2.1, ?_, ?_, ?_⟩
      · show bi + (bs + 1) ≤ ahi
        have := hc.1
        omega
      · show bj + (bs + 1) ≤ bhi
        have := hc.2.1
        omega
      · intro t ht
        have ht' : t < bs + 1 := ht
        show a.getD (bi + t) padChar = b.getD (bj + t) padChar
        rcases Nat.lt_succ_iff_lt_or_eq.mp ht' with h0 | h0
        · exact H.2.2.2.2 t h0
        · subst h0
          exact hc.2.2
    case isFalse => exact h

/-- `find_longest_match` always returns a block that lies inside the window
on both sides and whose two segments have equal content. -/
theorem find_longest_match_sound (a b : List Char) (alo ahi blo bhi : Nat)
    (ha : alo ≤ ahi) (hb : blo ≤ bhi) :
    BlockOK a b alo ahi blo bhi (find_longest_match a b alo ahi blo bhi) := by
  rw [find_longest_match]
  have hinit : BlockOK a b alo ahi blo bhi (alo, blo, 0) := by
    refine ⟨?_, ?_, ?_, ?_, ?_⟩
    · show alo ≤ alo
      exact le_refl alo
    · show blo ≤ blo
      exact le_refl blo
    · show alo + 0 ≤ ahi
      omega
    · show blo + 0 ≤ bhi
      omega
    · intro t ht
      exact absurd (show t < 0 from ht) (Nat.not_lt_zero t)
  have hrows := flmRows_sound a b alo ahi blo bhi (ahi - alo) alo (alo, blo, 0)
    (fun _ => 0) (le_refl alo) (by omega) hinit
    (jok_zero a b alo blo bhi (alo - 1)) (fun _ _ => rfl)
  exact extendFwd_sound a b alo ahi blo bhi ahi _
    (extendBack_sound a b alo ahi blo bhi _ _ hrows)

end Difflib

namespace Difflib

/-- Unfolding of `blocksAux` through a destructured best block. -/
theorem blocksAux_succ (a b : List Char) (fuel alo ahi blo bhi i j k : Nat)
    (hm : find_longest_match a b alo ahi blo bhi = (i, j, k)) :
    blocksAux a b (fuel + 1) alo ahi blo bhi =
      if k = 0 then []
      else
        (if alo < i ∧ blo < j then blocksAux a b fuel alo i blo j else []) ++
          (i, j, k) :: (if i + k < ahi ∧ j + k < bhi then
            blocksAux a b fuel (i + k) ahi (j + k) bhi else []) := by
  rw [blocksAux, hm]

/-- The collected matching blocks never cover more than either window. -/
theorem blocksAux_sum_le (a b : List Char) :
    ∀ (fuel alo ahi blo bhi : Nat), alo ≤ ahi → blo ≤ bhi →
      ((blocksAux a b fuel alo ahi blo bhi).map (fun m => m.2.2)).sum ≤
        ahi - alo ∧
      ((blocksAux a b fuel alo ahi blo bhi).map (fun m => m.2.2)).sum ≤
        bhi - blo
  | 0, alo, ahi, blo, bhi, _, _ => by
    rw [blocksAux]
    simp
  | fuel + 1, alo, ahi, blo, bhi, ha, hb => by
    rcases hmk : find_longest_match a b alo ahi blo bhi with ⟨i, j, k⟩
    have hs := find_longest_match_sound a b alo ahi blo bhi ha hb
    rw [hmk] at hs
    have H1 : alo ≤ i := hs.1
    have H2 : blo ≤ j := hs.2.1
    have H3 : i + k ≤ ahi := hs.2.2.1
    have H4 : j + k ≤ bhi := hs.2.2.2.1
    rw [blocksAux_succ a b fuel alo ahi blo bhi i j k hmk]
    by_cases hk : k = 0
    · rw [if_pos hk]
      simp
    · rw [if_neg hk, List.map_append, List.sum_append, List.map_cons,
        List.sum_cons]
      have hL : ((if alo < i ∧ blo < j then blocksAux a b fuel alo i blo j
            else []).map (fun m => m.2.2)).sum ≤ i - alo ∧
          ((if alo < i ∧ blo < j then blocksAux a b fuel alo i blo j
            else []).map (fun m => m.2.2)).sum ≤ j - blo := by
        by_cases hgl : alo < i ∧ blo < j
        · rw [if_pos hgl]
          exact blocksAux_sum_le a b fuel alo i blo j (by omega) (by omega)
        · rw [if_neg hgl]
          simp
      have hR : ((if i + k < ahi ∧ j + k < bhi then
            blocksAux a b fuel (i + k) ahi (j + k) bhi
            else []).map (fun m => m.2.2)).sum ≤ ahi - (i + k) ∧
          ((if i + k < ahi ∧ j + k < bhi then
            blocksAux a b fuel (i + k) ahi (j + k) bhi
            else []).map (fun m => m.2.2)).sum ≤ bhi - (j + k) := by
        by_cases hgr : i + k < ahi ∧ j + k < bhi
        · rw [if_pos hgr]
          exact blocksAux_sum_le a b fuel (i + k) ahi (j + k) bhi
            (by omega) (by omega)
        · rw [if_neg hgr]
          simp
      dsimp only
      constructor
      · omega
      · omega

end Difflib

namespace Difflib

/-- Equality of the two windows' contents, index by index. -/
def SegEq (a b : List Char) (alo ahi blo bhi : Nat) : Prop :=
  ahi - alo = bhi - blo ∧
  ∀ t, t < ahi - alo → a.getD (alo + t) padChar = b.getD (blo + t) padChar

/-- Gluing segment equalities across a sound middle block. -/
theorem segEq_glue (a b : List Char) (alo ahi blo bhi i j k : Nat)
    (H1 : alo ≤ i) (H2 : blo ≤ j) (H3 : i + k ≤ ahi) (H4 : j + k ≤ bhi)
    (H5 : ∀ t, t < k → a.getD (i + t) padChar = b.getD (j + t) padChar)
    (segL : SegEq a b alo i blo j)
    (segR : SegEq a b (i + k) ahi (j + k) bhi) :
    SegEq a b alo ahi blo bhi := by
  obtain ⟨lL, cL⟩ := segL
  obtain ⟨lR, cR⟩ := segR
  refine ⟨by omega, ?_⟩
  intro t ht
  by_cases hti : t < i - alo
  · exact cL t hti
  · by_cases htm : t < (i - alo) + k
    · have e1 : alo + t = i + (t - (i - alo)) := by omega
      have e2 : blo + t = j + (t - (i - alo)) := by omega
      rw [e1, e2]
      exact H5 _ (by omega)
    · have e1 : alo + t = i + k + (t - (i - alo) - k) := by omega
      have e2 : blo + t = j + k + (t - (i - alo) - k) := by omega
      rw [e1, e2]
      exact cR _ (by omega)

/-- If the collected blocks cover both windows completely, the windows hold
the same characters. -/
theorem blocksAux_cover (a b : List Char) :
    ∀ (fuel alo ahi blo bhi : Nat), alo ≤ ahi → blo ≤ bhi →
      ((blocksAux a b fuel alo ahi blo bhi).map (fun m => m.2.2)).sum =
        ahi - alo →
      ((blocksAux a b fuel alo ahi blo bhi).map (fun m => m.2.2)).sum =
        bhi - blo →
      SegEq a b alo ahi blo bhi
  | 0, alo, ahi, blo, bhi, ha, hb => by
    rw [blocksAux]
    intro h1 h2
    simp only [List.map_nil, List.sum_nil] at h1 h2
    exact ⟨by omega, fun t ht => absurd ht (by omega)⟩
  | fuel + 1, alo, ahi, blo, bhi, ha, hb => by
    rcases hmk : find_longest_match a b alo ahi blo bhi with ⟨i, j, k⟩
    have hs := find_longest_match_sound a b alo ahi blo bhi ha hb
    rw [hmk] at hs
    have H1 : alo ≤ i := hs.1
    have H2 : blo ≤ j := hs.2.1
    have H3 : i + k ≤ ahi := hs.2.2.1
    have H4 : j + k ≤ bhi := hs.2.2.2.1
    have H5 : ∀ t, t < k →
        a.getD (i + t) padChar = b.getD (j + t) padChar := hs.2.2.2.2
    rw [blocksAux_succ a b fuel alo ahi blo bhi i j k hmk]
    by_cases hk : k = 0
    · rw [if_pos hk]
      intro h1 h2
      simp only [List.map_nil, List.sum_nil] at h1 h2
      exact ⟨by omega, fun t ht => absurd ht (by omega)⟩
    · rw [if_neg hk, List.map_append, List.sum_append, List.map_cons,
        List.sum_cons]
      dsimp only
      intro h1 h2
      by_cases hgl : alo < i ∧ blo < j
      · rw [if_pos hgl] at h1 h2
        have hLb := blocksAux_sum_le a b fuel alo i blo j (by omega) (by omega)
        by_cases hgr : i + k < ahi ∧ j + k < bhi
        · rw [if_pos hgr] at h1 h2
          have hRb := blocksAux_sum_le a b fuel (i + k) ahi (j + k) bhi
            (by omega) (by omega)
          have segL := blocksAux_cover a b fuel alo i blo j (by omega)
            (by omega) (by omega) (by omega)
          have segR := blocksAux_cover a b fuel (i + k) ahi (j + k) bhi
            (by omega) (by omega) (by omega) (by omega)
          exact segEq_glue a b alo ahi blo bhi i j k H1 H2 H3 H4 H5 segL segR
        · rw [if_neg hgr] at h1 h2
          simp only [List.map_nil, List.sum_nil] at h1 h2
          have segL := blocksAux_cover a b fuel alo i blo j (by omega)
            (by omega) (by omega) (by omega)
          have segR : SegEq a b (i + k) ahi (j + k) bhi :=
            ⟨by omega, fun t ht => absurd ht (by omega)⟩
          exact segEq_glue a b alo ahi blo bhi i j k H1 H2 H3 H4 H5 segL segR
      · rw [if_neg hgl] at h1 h2
        simp only [List.map_nil, List.sum_nil] at h1 h2
        have segL : SegEq a b alo i blo j := by
          by_cases hgr : i + k < ahi ∧ j + k < bhi
          · rw [if_pos hgr] at h1 h2
            have hRb := blocksAux_sum_le a b fuel (i + k) ahi (j + k) bhi
              (by omega) (by omega)
            exact ⟨by omega, fun t ht => absurd ht (by omega)⟩
          · rw [if_neg hgr] at h1 h2
            simp only [List.map_nil, List.sum_nil] at h1 h2
            exact ⟨by omega, fun t ht => absurd ht (by omega)⟩
        by_cases hgr : i + k < ahi ∧ j + k < bhi
        · rw [if_pos hgr] at h1 h2
          have hRb := blocksAux_sum_le a b fuel (i + k) ahi (j + k) bhi
            (by omega) (by omega)
          have segR := blocksAux_cover a b fuel (i + k) ahi (j + k) bhi
            (by omega) (by omega) (by omega) (by omega)
          exact segEq_glue a b alo ahi blo bhi i j k H1 H2 H3 H4 H5 segL segR
        · rw [if_neg hgr] at h1 h2
          simp only [List.map_nil, List.sum_nil] at h1 h2
          have segR : SegEq a b (i + k) ahi (j + k) bhi :=
            ⟨by omega, fun t ht => absurd ht (by omega)⟩
          exact segEq_glue a b alo ahi blo bhi i j k H1 H2 H3 H4 H5 segL segR

end Difflib

namespace Difflib

/-- A `ratio` of exactly `1` forces the two sequences to be identical: the
matching blocks then cover both sequences completely and in order. -/
theorem ratio_eq_one (a b : List Char) (h : ratio a b = 1) : a = b := by
  rw [ratio] at h
  by_cases h0 : a.length + b.length ≠ 0
  · rw [if_pos h0] at h
    have hden : ((a.length : ℚ) + (b.length : ℚ)) ≠ 0 := by
      have hq : ((a.length + b.length : Nat) : ℚ) ≠ 0 := by
        exact_mod_cast h0
      push_cast at hq
      exact hq
    rw [div_eq_one_iff_eq hden] at h
    have hM : 2 * totalMatches a b = a.length + b.length := by
      exact_mod_cast h
    have hbound := blocksAux_sum_le a b (a.length + b.length + 1) 0 a.length
      0 b.length (Nat.zero_le _) (Nat.zero_le _)
    have hb1 : totalMatches a b ≤ a.length - 0 := hbound.1
    have hb2 : totalMatches a b ≤ b.length - 0 := hbound.2
    have hcov := blocksAux_cover a b (a.length + b.length + 1) 0 a.length
      0 b.length (Nat.zero_le _) (Nat.zero_le _)
      (show totalMatches a b = a.length - 0 by omega)
      (show totalMatches a b = b.length - 0 by omega)
    obtain ⟨hlen, hcont⟩ := hcov
    apply List.ext_getElem (by omega)
    intro n h1 h2
    have hc := hcont n (by omega)
    rw [show (0 + n) = n from Nat.zero_add n, List.getD_eq_getElem a padChar h1,
      List.getD_eq_getElem b padChar h2] at hc
    exact hc
  · have ha : a = [] := List.length_eq_zero.mp (by omega)
    have hb : b = [] := List.length_eq_zero.mp (by omega)
    rw [ha, hb]

end Difflib

/-- **C7 (amended).** `similarity(x, x) = 1` for every non-empty `x` (even
when autojunk marks characters popular, the forward extension completes the
diagonal block), `similarity(x, "") = 0` for every non-empty `x`, and a
similarity of exactly `1` occurs only between identical strings; but
`similarity` is not symmetric in general (see the counterexample), so the
claim's symmetry equation does not hold on the code. -/
theorem claim_C7_amended_similarity_props :
    (∀ x : String, x ≠ "" → similarity x x = 1) ∧
    (∀ x : String, x ≠ "" → similarity x "" = 0) ∧
    (∀ x y : String, similarity x y = 1 → x = y) := by
  refine ⟨?_, ?_, ?_⟩
  · intro x hx
    refine Difflib.ratio_self x.data fun h => hx ?_
    cases x with
    | mk data => cases h; rfl
  · intro x hx
    refine Difflib.ratio_nil_b x.data fun h => hx ?_
    cases x with
    | mk data => cases h; rfl
  · intro x y h
    have hd := Difflib.ratio_eq_one x.data y.data h
    cases x with
    | mk xdata =>
      cases y with
      | mk ydata => cases hd; rfl

/-- **C7 witness.** -/
theorem claim_C7_amended_similarity_props_witness :
    similarity "ab" "ab" = 1 ∧ similarity "ab" "" = 0 ∧ "ab" = "ab" :=
  ⟨claim_C7_amended_similarity_props.1 "ab" (by decide),
    claim_C7_amended_similarity_props.2.1 "ab" (by decide),
    claim_C7_amended_similarity_props.2.2 "ab" "ab"
      (claim_C7_amended_similarity_props.1 "ab" (by decide))⟩

end DetectArb
